import Mathlib

/-!
Verification development for the Espresso wallet core
(`zerok_lib/src/wallet.rs`, `zerok_lib/src/wallet/persistence.rs`) and the
multi-machine launcher (`validator/src/bin/multi_machine_automation.rs`).

The Rust code is shallowly embedded: hash maps and B-tree maps become
association lists queried through `lookupA`, B-tree sets of `(amount, uid)`
pairs become ascending sorted lists, records and wallet state become plain
structures, panics (`unwrap`, `assert!`, `unimplemented!`) become `Option`
failure, and the cryptographic layer (nullifier derivation, proof and note
generation, memo decryption) together with the backend become oracle
parameters, since that code lives outside this repository.
-/

set_option maxHeartbeats 1000000
set_option linter.unusedVariables false

namespace Espresso

/-! ### Association-list maps

`HashMap` / `BTreeMap` are modelled as association lists with
insert-replaces-key semantics; all statements go through `lookupA`. -/

def lookupA {κ α : Type} [DecidableEq κ] : List (κ × α) → κ → Option α
  | [], _ => none
  | (k, v) :: rest, k2 => if k2 = k then some v else lookupA rest k2

def eraseA {κ α : Type} [DecidableEq κ] : List (κ × α) → κ → List (κ × α)
  | [], _ => []
  | (k, v) :: rest, k2 => if k2 = k then eraseA rest k2 else (k, v) :: eraseA rest k2

def insertA {κ α : Type} [DecidableEq κ] (l : List (κ × α)) (k : κ) (v : α) :
    List (κ × α) :=
  (k, v) :: eraseA l k

/-- Remove every occurrence of `n` from a list of naturals (HashSet::remove). -/
def eraseL : List Nat → Nat → List Nat
  | [], _ => []
  | x :: rest, n => if x = n then eraseL rest n else x :: eraseL rest n

/-- HashSet::insert: add `n` if it is not already present. -/
def insertSet (n : Nat) (l : List Nat) : List Nat :=
  if n ∈ l then l else n :: l

/-! ### B-tree sets of `(amount, uid)` pairs

`BTreeSet<(u64, u64)>` is modelled as a list kept sorted in strictly
ascending lexicographic order by `btInsert`. -/

/-- Strict lexicographic order on `(amount, uid)` pairs. -/
def pairLt (a b : Nat × Nat) : Prop :=
  a.1 < b.1 ∨ (a.1 = b.1 ∧ a.2 < b.2)

instance (a b : Nat × Nat) : Decidable (pairLt a b) := by
  unfold pairLt; infer_instance

/-- Ordered-set insertion (BTreeSet::insert). -/
def btInsert : List (Nat × Nat) → Nat × Nat → List (Nat × Nat)
  | [], x => [x]
  | y :: rest, x =>
    if pairLt x y then x :: y :: rest
    else if x = y then y :: rest
    else y :: btInsert rest x

/-- Ordered-set removal (BTreeSet::remove). -/
def btErase : List (Nat × Nat) → Nat × Nat → List (Nat × Nat)
  | [], _ => []
  | y :: rest, x => if y = x then btErase rest x else y :: btErase rest x

/-! ### Records and the record database (wallet.rs, `RecordDatabase`) -/

/-- `RecordOpening`: asset code, owner public key, freeze flag and amount.
Asset codes and user public keys are abstracted as naturals; the blinding
factor plays no role in the verified operations and is omitted. -/
structure RecordOpening where
  amount : Nat
  asset : Nat
  pub_key : Nat
  freeze_flag : Bool
deriving DecidableEq, Repr

/-- `RecordInfo`: a record opening with its uid and optional hold time. -/
structure RecordInfo where
  ro : RecordOpening
  uid : Nat
  hold_until : Option Nat
deriving DecidableEq, Repr

/-- `RecordInfo::on_hold`: `matches!(self.hold_until, Some(t) if t > now)`. -/
def RecordInfo.on_hold (r : RecordInfo) (now : Nat) : Bool :=
  match r.hold_until with
  | some t => now < t
  | none => false

/-- `RecordInfo::unhold`. -/
def RecordInfo.unhold (r : RecordInfo) : RecordInfo :=
  { r with hold_until := none }

/-- The key of the secondary index: `(AssetCode, UserPubKey, FreezeFlag)`. -/
abbrev AssetKey := Nat × Nat × Bool

/-- Key of the secondary-index entry a record belongs to. -/
def RecordOpening.key (ro : RecordOpening) : AssetKey :=
  (ro.asset, ro.pub_key, ro.freeze_flag)

/-- `RecordDatabase`: the three coordinated indices. -/
structure RecordDatabase where
  record_info : List (Nat × RecordInfo)
  asset_records : List (AssetKey × List (Nat × Nat))
  nullifier_records : List (Nat × Nat)
deriving DecidableEq, Repr

/-- The `(amount, uid)` bucket of a secondary-index key (empty if absent). -/
def RecordDatabase.bucket (db : RecordDatabase) (key : AssetKey) : List (Nat × Nat) :=
  (lookupA db.asset_records key).getD []

/-- The per-entry body of `input_records`: resolve the bucket entry's uid,
skip zero-amount dummies and records on hold. -/
def inputFilter (db : RecordDatabase) (now : Nat) (p : Nat × Nat) : Option RecordInfo :=
  match lookupA db.record_info p.2 with
  | some record =>
    if record.ro.amount == 0 || record.on_hold now then none else some record
  | none => none

/-- `RecordDatabase::input_records`: records of the given triple in
descending size order, skipping zero-amount dummies and records on hold. -/
def RecordDatabase.input_records (db : RecordDatabase) (asset owner : Nat)
    (frozen : Bool) (now : Nat) : List RecordInfo :=
  ((lookupA db.asset_records (asset, owner, frozen)).getD []).reverse.filterMap
    (inputFilter db now)

/-- Scan of the exact-amount range: return the first record that is not on
hold (`input_record_with_amount`'s loop over `range((amount,0)..(amount+1,0))`). -/
def findExactIn (db : RecordDatabase) (now : Nat) : List (Nat × Nat) → Option RecordInfo
  | [] => none
  | p :: rest =>
    match lookupA db.record_info p.2 with
    | some record => if record.on_hold now then findExactIn db now rest else some record
    | none => findExactIn db now rest

/-- `RecordDatabase::input_record_with_amount`: first non-held record of the
triple whose amount is exactly `amount`. -/
def RecordDatabase.input_record_with_amount (db : RecordDatabase)
    (asset owner : Nat) (frozen : Bool) (amount now : Nat) : Option RecordInfo :=
  match lookupA db.asset_records (asset, owner, frozen) with
  | none => none
  | some b => findExactIn db now (b.filter (fun p => p.1 == amount))

/-- `RecordDatabase::record_with_nullifier_mut` (read part): resolve a
nullifier to its uid and record. -/
def RecordDatabase.record_with_nullifier (db : RecordDatabase) (n : Nat) :
    Option (Nat × RecordInfo) :=
  match lookupA db.nullifier_records n with
  | none => none
  | some uid =>
    match lookupA db.record_info uid with
    | none => none
    | some r => some (uid, r)

/-- `RecordDatabase::insert_with_nullifier`: insert into all three indices.
`insert` and `insert_freezable` are this operation with the nullifier
computed by the owner / freezer key (an oracle in this embedding). -/
def RecordDatabase.insert_with_nullifier (db : RecordDatabase) (ro : RecordOpening)
    (uid nullifier : Nat) : RecordDatabase :=
  { asset_records :=
      insertA db.asset_records ro.key (btInsert (db.bucket ro.key) (ro.amount, uid)),
    nullifier_records := insertA db.nullifier_records nullifier uid,
    record_info := insertA db.record_info uid ⟨ro, uid, none⟩ }

/-- `RecordDatabase::remove_by_nullifier`. The source `unwrap`s the record
and the secondary bucket; those branches are unreachable on well-formed
databases and are modelled as leaving the respective index unchanged. -/
def RecordDatabase.remove_by_nullifier (db : RecordDatabase) (nullifier : Nat) :
    Option RecordInfo × RecordDatabase :=
  match lookupA db.nullifier_records nullifier with
  | none => (none, db)
  | some uid =>
    match lookupA db.record_info uid with
    | none => (none, { db with nullifier_records := eraseA db.nullifier_records nullifier })
    | some record =>
      (some record,
        { record_info := eraseA db.record_info uid,
          asset_records :=
            match lookupA db.asset_records record.ro.key with
            | some b =>
              insertA db.asset_records record.ro.key (btErase b (record.ro.amount, uid))
            | none => db.asset_records,
          nullifier_records := eraseA db.nullifier_records nullifier })

/-- Boolean sortedness of a bucket in strictly ascending `pairLt` order. -/
def sortedBucket : List (Nat × Nat) → Bool
  | [] => true
  | [_] => true
  | x :: y :: rest => decide (pairLt x y) && sortedBucket (y :: rest)

/-- Well-formedness of a record database: every nullifier entry resolves to a
live record; every record is registered in its bucket under its own uid; every
bucket entry resolves to a record with matching amount and key; buckets are
sorted ascending. All of this is maintained by `insert_with_nullifier` /
`remove_by_nullifier` in the source. -/
def wfb (db : RecordDatabase) : Bool :=
  db.nullifier_records.all (fun p => (lookupA db.record_info p.2).isSome) &&
  db.record_info.all (fun p =>
    p.2.uid == p.1 && decide ((p.2.ro.amount, p.1) ∈ db.bucket p.2.ro.key)) &&
  db.asset_records.all (fun p =>
    sortedBucket p.2 &&
    p.2.all (fun q =>
      match lookupA db.record_info q.2 with
      | some r => r.ro.amount == q.1 && r.ro.key == p.1
      | none => false))

/-! ### Wallet errors and record selection (`find_records`) -/

/-- `WalletError` (payloads abstracted to naturals like the rest). -/
inductive WalletError where
  | InsufficientBalance (asset required actual : Nat)
  | Fragmentation (asset amount suggested_amount max_records : Nat)
  | TooManyOutputs (asset max_records num_receivers num_change_records : Nat)
  | UndefinedAsset (asset : Nat)
  | NullifierAlreadyPublished (nullifier : Nat)
  | CryptoError (err : Nat)
  | InvalidAddress (address : Nat)
  | InvalidFreezerKey (my_key asset_key : Nat)
  | InvalidAuditorKey (my_key asset_key : Nat)
deriving DecidableEq, Repr

/-- The accumulation loop of `find_records`: before each candidate, fail with
`Fragmentation` if `max_records` records are already selected; otherwise take
the candidate and succeed as soon as the running total reaches `amount`;
fail with `InsufficientBalance` when the candidates are exhausted. -/
def frLoop (asset amount : Nat) (max_records : Option Nat) :
    List RecordInfo → List (RecordOpening × Nat) → Nat →
    Except WalletError (List (RecordOpening × Nat) × Nat)
  | [], _result, current_amount =>
    .error (.InsufficientBalance asset amount current_amount)
  | record :: rest, result, current_amount =>
    match max_records with
    | some m =>
      if m ≤ result.length then
        .error (.Fragmentation asset amount current_amount m)
      else
        let current := current_amount + record.ro.amount
        let result2 := result ++ [(record.ro, record.uid)]
        if amount ≤ current then .ok (result2, current - amount)
        else frLoop asset amount max_records rest result2 current
    | none =>
      let current := current_amount + record.ro.amount
      let result2 := result ++ [(record.ro, record.uid)]
      if amount ≤ current then .ok (result2, current - amount)
      else frLoop asset amount max_records rest result2 current

/-- `WalletState::find_records`: prefer a non-held exact-amount record,
otherwise run the worst-fit accumulation loop over `input_records`. -/
def find_records (db : RecordDatabase) (now asset owner : Nat) (frozen : Bool)
    (amount : Nat) (max_records : Option Nat) :
    Except WalletError (List (RecordOpening × Nat) × Nat) :=
  match db.input_record_with_amount asset owner frozen amount now with
  | some record => .ok ([(record.ro, record.uid)], 0)
  | none => frLoop asset amount max_records (db.input_records asset owner frozen now) [] 0

/-- Total amount of a record list. -/
def sumAmt (l : List RecordInfo) : Nat :=
  (l.map (fun r => r.ro.amount)).sum

/-- Amount of the first `k` candidates of a record list. -/
def sumTake (cands : List RecordInfo) (k : Nat) : Nat :=
  sumAmt (cands.take k)

/-- Full case characterization of the `find_records` accumulation loop when no
exact-amount match exists, phrased over the descending candidate list. -/
def FRchar (asset : Nat) (cands : List RecordInfo) (amount : Nat)
    (max_records : Option Nat)
    (res : Except WalletError (List (RecordOpening × Nat) × Nat)) : Prop :=
  (∀ recs change, res = .ok (recs, change) →
    ∃ k, 1 ≤ k ∧ k ≤ cands.length ∧
      recs = (cands.take k).map (fun r => (r.ro, r.uid)) ∧
      amount ≤ sumTake cands k ∧ change = sumTake cands k - amount ∧
      (∀ j, 1 ≤ j → j < k → sumTake cands j < amount) ∧
      (∀ m, max_records = some m → k ≤ m)) ∧
  (∀ a amt sugg m, res = .error (.Fragmentation a amt sugg m) →
    a = asset ∧ amt = amount ∧ max_records = some m ∧ sugg = sumTake cands m ∧
    m < cands.length ∧ (∀ j, 1 ≤ j → j ≤ m → sumTake cands j < amount)) ∧
  (∀ a req act, res = .error (.InsufficientBalance a req act) →
    a = asset ∧ req = amount ∧ act = sumAmt cands ∧
    (∀ j, 1 ≤ j → j ≤ cands.length → sumTake cands j < amount) ∧
    (∀ m, max_records = some m → cands.length ≤ m)) ∧
  (∀ e, res = .error e →
    (∃ a amt sugg m, e = .Fragmentation a amt sugg m) ∨
    ∃ a req act, e = .InsufficientBalance a req act)

/-! ### Wallet state (`WalletState`)

The validator mirror and the sparse nullifier set are not under `src/`;
following the specification, the validator contributes its commit time
(`prev_commit_time`, advanced by one per validated block) and the nullifier
set is a plain set with `contains`/`insert`. -/

/-- `PendingTransaction` (memos and signature abstracted). -/
structure PendingTransaction where
  receiver_memos : Nat
  signature : Nat
  freeze_outputs : List RecordOpening
  timeout : Nat
deriving DecidableEq, Repr

/-- The part of an `ElaboratedTransaction` the wallet bookkeeping reads: its
input nullifiers (fee nullifier first) and its output count. -/
structure ModelTxn where
  nullifiers : List Nat
  output_len : Nat
deriving DecidableEq, Repr

/-- `ValidationError` (only `BadNullifierProof` is distinguished). -/
inductive MValidationError where
  | BadNullifierProof
  | Other (code : Nat)
deriving DecidableEq, Repr

/-- Wallet state. `ghost_inflight` is a ghost field that is not in the
source: it records, for each pending fee nullifier, the full input-nullifier
list of the submitted transaction, and exists only so that the
pending-transaction invariant ("every input nullifier of every pending
transaction ...") can be stated; no operation reads it. -/
structure WalletState where
  now : Nat
  prev_commit_time : Nat
  records : RecordDatabase
  nullifier_set : List Nat
  pending_txns : List (Nat × PendingTransaction)
  expiring_txns : List (Nat × List Nat)
  defined_assets : List (Nat × Nat)
  ghost_inflight : List (Nat × List Nat)
deriving DecidableEq, Repr

/-- The bucket of fee nullifiers expiring at time `t` (empty if absent). -/
def bucketGet (e : List (Nat × List Nat)) (t : Nat) : List Nat :=
  (lookupA e t).getD []

/-- `expiring_txns.entry(t).or_default().insert(n)`. -/
def bucketInsert (e : List (Nat × List Nat)) (t n : Nat) : List (Nat × List Nat) :=
  insertA e t (insertSet n (bucketGet e t))

/-- `if let Some(expiring) = expiring_txns.get_mut(&t) { expiring.remove(&n) }`. -/
def bucketErase (e : List (Nat × List Nat)) (t n : Nat) : List (Nat × List Nat) :=
  match lookupA e t with
  | none => e
  | some b => insertA e t (eraseL b n)

/-- `RECORD_HOLD_TIME`: equals `ValidatorState::RECORD_ROOT_HISTORY_SIZE`
(a constant of the validator crate, kept abstract as a parameter). -/
def RECORD_HOLD_TIME (recordRootHistorySize : Nat) : Nat :=
  recordRootHistorySize

/-- The hold-placement loop of `add_pending_transaction`: for every input
nullifier, the record must exist (`unwrap`) and must not be on hold
(`assert!`); its hold is then set to `timeout`. `none` models the panic. -/
def holdAll : RecordDatabase → List Nat → Nat → Nat → Option RecordDatabase
  | db, [], _, _ => some db
  | db, n :: rest, now, timeout =>
    match lookupA db.nullifier_records n with
    | none => none
    | some uid =>
      match lookupA db.record_info uid with
      | none => none
      | some r =>
        if r.on_hold now then none
        else
          holdAll
            { db with record_info := insertA db.record_info uid { r with hold_until := some timeout } }
            rest now timeout

/-- `WalletState::add_pending_transaction`. -/
def add_pending_transaction (recordRootHistorySize : Nat) (s : WalletState)
    (nulls : List Nat) (memos sig : Nat) (freeze_outputs : List RecordOpening) :
    Option WalletState :=
  let now := s.prev_commit_time
  let timeout := now + RECORD_HOLD_TIME recordRootHistorySize
  match holdAll s.records nulls now timeout with
  | none => none
  | some db =>
    match nulls with
    | [] => none
    | n0 :: _ =>
      some { s with
        records := db,
        pending_txns := insertA s.pending_txns n0 ⟨memos, sig, freeze_outputs, timeout⟩,
        expiring_txns := bucketInsert s.expiring_txns timeout n0,
        ghost_inflight := insertA s.ghost_inflight n0 nulls }

/-- Result of a user operation: either a local construction error returned
before submission reached the backend, or a submission together with the
backend's reply. -/
inductive SubmitOutcome where
  | localError (e : WalletError)
  | submitted (backend_result : Option WalletError)
deriving DecidableEq, Repr

/-- `WalletState::submit_elaborated_transaction`: place holds and the pending
entry, then hand the transaction to the backend; the backend's result is
returned to the caller without touching the state again. -/
def submit_elaborated_transaction (recordRootHistorySize : Nat)
    (backend_result : Option WalletError) (s : WalletState) (nulls : List Nat)
    (memos sig : Nat) (freeze_outputs : List RecordOpening) :
    Option (WalletState × SubmitOutcome) :=
  match add_pending_transaction recordRootHistorySize s nulls memos sig freeze_outputs with
  | none => none
  | some s2 => some (s2, .submitted backend_result)

/-! ### Event handling (`handle_event`, `clear_pending_transaction`,
`clear_expired_transactions`) -/

/-- The nullifier loop of `clear_pending_transaction`. `ours` is whether the
transaction matched one of our pending entries, `isErr` whether the
transaction was rejected. For each input nullifier that resolves to a record:
if ours, the record must be on hold (`assert!`) and is unheld when the
transaction failed; if not ours, it must not be on hold (`assert!`). -/
def unholdOrCheck (ours isErr : Bool) (now : Nat) :
    RecordDatabase → List Nat → Option RecordDatabase
  | db, [] => some db
  | db, n :: rest =>
    match lookupA db.nullifier_records n with
    | none => unholdOrCheck ours isErr now db rest
    | some uid =>
      match lookupA db.record_info uid with
      | none => unholdOrCheck ours isErr now db rest
      | some r =>
        if ours then
          if r.on_hold now then
            if isErr then
              unholdOrCheck ours isErr now
                { db with record_info := insertA db.record_info uid r.unhold } rest
            else unholdOrCheck ours isErr now db rest
          else none
        else
          if r.on_hold now then none else unholdOrCheck ours isErr now db rest

/-- Insert a batch of freezable records (`insert_freezable` over a zip),
with the freezer-key nullifier function as an oracle. -/
def insertFreezables (fnul : RecordOpening → Nat → Nat) (db : RecordDatabase) :
    List (Nat × RecordOpening) → RecordDatabase
  | [] => db
  | (uid, ro) :: rest =>
    insertFreezables fnul (db.insert_with_nullifier ro uid (fnul ro uid)) rest

/-- `WalletState::clear_pending_transaction`. `uidsOk = some uids` is the
`Ok` (committed) case carrying this transaction's output uids, `none` the
`Err` (rejected) case. Returns the removed pending entry, if any. -/
def clear_pending_transaction (fnul : RecordOpening → Nat → Nat) (s : WalletState)
    (txn : ModelTxn) (uidsOk : Option (List Nat)) :
    Option (Option PendingTransaction × WalletState) :=
  match txn.nullifiers with
  | [] => none
  | txn_id :: _ =>
    let now := s.prev_commit_time
    let pending := lookupA s.pending_txns txn_id
    let expiring :=
      match pending with
      | some p => bucketErase s.expiring_txns p.timeout txn_id
      | none => s.expiring_txns
    match unholdOrCheck pending.isSome uidsOk.isNone now s.records txn.nullifiers with
    | none => none
    | some db =>
      let db :=
        match uidsOk, pending with
        | some uids, some p => insertFreezables fnul db ((uids.drop 1).zip p.freeze_outputs)
        | _, _ => db
      some (pending,
        { s with
          records := db,
          pending_txns := eraseA s.pending_txns txn_id,
          expiring_txns := expiring,
          ghost_inflight := eraseA s.ghost_inflight txn_id })

/-- The per-nullifier body of `clear_expired_transactions`: the fee
nullifier's record must exist with `hold_until == Some(now)` (`assert!`);
the pending entry is removed. -/
def expireAll (now : Nat) : WalletState → List Nat → Option WalletState
  | s, [] => some s
  | s, n :: rest =>
    match s.records.record_with_nullifier n with
    | none => none
    | some (_, r) =>
      if r.hold_until = some now then
        expireAll now
          { s with
            pending_txns := eraseA s.pending_txns n,
            ghost_inflight := eraseA s.ghost_inflight n }
          rest
      else none

/-- `WalletState::clear_expired_transactions`: debug-assert that no bucket
key is in the past, remove the bucket of the current time and every pending
entry it names. -/
def clear_expired_transactions (s : WalletState) : Option WalletState :=
  let now := s.prev_commit_time
  if s.expiring_txns.all (fun p => now ≤ p.1) then
    expireAll now
      { s with expiring_txns := eraseA s.expiring_txns now }
      (bucketGet s.expiring_txns now)
  else none

/-- Processing of one committed transaction inside `handle_event(Commit ..)`:
clear a matching pending entry (restoring freeze outputs), apply the
audit and receive insertions (decryption outcomes are oracle inputs, the
nullifier derivations `fnul`/`unul` are the freezer/user key oracles), then
spend: record every input nullifier in the nullifier set and remove its
record from the database. -/
def process_commit_txn (fnul unul : RecordOpening → Nat → Nat) (s : WalletState)
    (txn : ModelTxn) (this_uids : List Nat)
    (auditIns recvIns : List (Nat × RecordOpening)) : Option WalletState :=
  if this_uids.length ≠ txn.output_len then none
  else
    match clear_pending_transaction fnul s txn (some this_uids) with
    | none => none
    | some (_, s1) =>
      let s2 := { s1 with records := insertFreezables fnul s1.records auditIns }
      let s3 := { s2 with records := insertFreezables unul s2.records recvIns }
      some (txn.nullifiers.foldl
        (fun st n =>
          { st with
            nullifier_set := insertSet n st.nullifier_set,
            records := (st.records.remove_by_nullifier n).2 })
        s3)

/-- `update_nullifier_proofs` succeeds iff no input nullifier is already in
the (mirrored) nullifier set. -/
def update_nullifier_proofs_ok (s : WalletState) (txn : ModelTxn) : Bool :=
  txn.nullifiers.all (fun n => !(s.nullifier_set.contains n))

/-- Processing of one rejected transaction inside `handle_event(Reject ..)`:
clear the matching pending entry (releasing input holds); if the error is
`BadNullifierProof`, refresh the nullifier proofs and resubmit exactly once
via `submit_elaborated_transaction`, dropping the transaction if the refresh
fails and only logging if the backend rejects the resubmission. The second
component lists the transactions handed to the backend. -/
def process_reject_txn (fnul : RecordOpening → Nat → Nat)
    (recordRootHistorySize : Nat) (s : WalletState) (txn : ModelTxn)
    (err : MValidationError) : Option (WalletState × List ModelTxn) :=
  match clear_pending_transaction fnul s txn none with
  | none => none
  | some (none, s1) => some (s1, [])
  | some (some pending, s1) =>
    if err = .BadNullifierProof then
      if update_nullifier_proofs_ok s1 txn then
        match add_pending_transaction recordRootHistorySize s1 txn.nullifiers
            pending.receiver_memos pending.signature pending.freeze_outputs with
        | none => none
        | some s2 => some (s2, [txn])
      else some (s1, [])
    else some (s1, [])

/-- A ledger event, with the outcomes of the untrusted-code oracles inlined:
for a commit, whether local re-validation succeeded together with the flat
output-uid list, and the audit/receive insertions per transaction. -/
inductive MEvent where
  | Commit (txns : List ModelTxn) (validated : Option (List Nat))
      (audits recvs : List (List (Nat × RecordOpening)))
  | Reject (txns : List ModelTxn) (err : MValidationError)
deriving Repr

/-- Per-transaction fold of `handle_event(Commit ..)`, splitting the flat uid
list by output count. -/
def processCommits (fnul unul : RecordOpening → Nat → Nat) :
    WalletState → List (ModelTxn × List (Nat × RecordOpening) × List (Nat × RecordOpening)) →
    List Nat → Option WalletState
  | s, [], _ => some s
  | s, (txn, auditIns, recvIns) :: rest, uids =>
    match process_commit_txn fnul unul s txn (uids.take txn.output_len) auditIns recvIns with
    | none => none
    | some s2 => processCommits fnul unul s2 rest (uids.drop txn.output_len)

/-- Per-transaction fold of `handle_event(Reject ..)`. -/
def processRejects (fnul : RecordOpening → Nat → Nat) (recordRootHistorySize : Nat)
    (err : MValidationError) :
    WalletState → List ModelTxn → Option (WalletState × List ModelTxn)
  | s, [] => some (s, [])
  | s, txn :: rest =>
    match process_reject_txn fnul recordRootHistorySize s txn err with
    | none => none
    | some (s2, subs) =>
      match processRejects fnul recordRootHistorySize err s2 rest with
      | none => none
      | some (s3, subs2) => some (s3, subs ++ subs2)

/-- `WalletState::handle_event`: advance the event clock; on a commit,
re-validate (advancing the validator time on success, returning unchanged on
failure), clear expired transactions and process each transaction; on a
reject, clear each matching pending entry and resubmit on
`BadNullifierProof`. -/
def handle_event (fnul unul : RecordOpening → Nat → Nat)
    (recordRootHistorySize : Nat) (s : WalletState) (ev : MEvent) :
    Option (WalletState × List ModelTxn) :=
  let s := { s with now := s.now + 1 }
  match ev with
  | .Commit txns validated audits recvs =>
    match validated with
    | none => some (s, [])
    | some uids =>
      let s := { s with prev_commit_time := s.prev_commit_time + 1 }
      match clear_expired_transactions s with
      | none => none
      | some s2 =>
        match processCommits fnul unul s2 (txns.zip (audits.zip recvs)) uids with
        | none => none
        | some s3 => some (s3, [])
  | .Reject txns err => processRejects fnul recordRootHistorySize err s txns

/-! ### Transaction construction (user operations)

The proving-key set, the note/proof generation and the receiver-memo
signing live in the `jf_txn` crate; their outcomes are oracle parameters
(`best_fit`, `gen_err`, `sign_err`, ...). The wallet-observable control flow
of each operation is translated branch by branch from the source. -/

/-- `AssetCode::native()`. -/
def NATIVE_ASSET : Nat := 0

/-- The dummy-output padding of `xfr_proving_key`: push zero-amount records
owned by us until the outputs fill the key minus the fee-change slot. -/
def padOutputs (me asset : Nat) (outputs : List RecordOpening) (key_outputs : Nat) :
    List RecordOpening :=
  if outputs.length + 1 < key_outputs then
    outputs ++ List.replicate (key_outputs - 1 - outputs.length) ⟨0, asset, me, false⟩
  else outputs

/-- `WalletState::xfr_proving_key`: choose the best-fit transfer key; on
failure report `Fragmentation` when a key with enough outputs exists,
otherwise `TooManyOutputs`; on success pad outputs with dummies. Choosing a
key with spare inputs hits `unimplemented!` (modelled as `none`). -/
def xfr_proving_key (best_fit : Nat → Nat → Except (Nat × Nat) (Nat × Nat))
    (me asset : Nat) (asset_is_native : Bool) (inputs : List (RecordOpening × Nat))
    (outputs : List RecordOpening) (change_record : Bool) :
    Option (Except WalletError (Nat × Nat × List RecordOpening)) :=
  let total_output_amount := (outputs.map (fun ro => ro.amount)).sum
  let fee_inputs := if asset_is_native then 0 else 1
  let num_inputs := inputs.length + fee_inputs
  let num_outputs := outputs.length + 1
  match best_fit num_inputs num_outputs with
  | .error (max_inputs, max_outputs) =>
    if num_outputs ≤ max_outputs then
      some (.error (.Fragmentation asset total_output_amount
        (((inputs.take (max_inputs - fee_inputs)).map (fun i => i.1.amount)).sum)
        max_inputs))
    else
      some (.error (.TooManyOutputs asset max_outputs
        (outputs.length - (if change_record then 1 else 0))
        (1 + (if change_record then 1 else 0))))
  | .ok (key_inputs, key_outputs) =>
    if key_inputs < num_inputs ∨ key_outputs < num_outputs then none
    else if num_inputs < key_inputs then none
    else some (.ok (key_inputs, key_outputs, padOutputs me asset outputs key_outputs))

/-- `WalletState::freeze_proving_key`: freeze transactions have equal input
and output counts; on failure always report `Fragmentation`. -/
def freeze_proving_key (best_fit : Nat → Nat → Except (Nat × Nat) (Nat × Nat))
    (asset : Nat) (inputs : List (RecordOpening × Nat)) :
    Option (Except WalletError (Nat × Nat)) :=
  let total_output_amount := (inputs.map (fun i => i.1.amount)).sum
  let num_inputs := inputs.length + 1
  let num_outputs := num_inputs
  match best_fit num_inputs num_outputs with
  | .error (max_inputs, _) =>
    some (.error (.Fragmentation asset total_output_amount
      (((inputs.take (max_inputs - 1)).map (fun i => i.1.amount)).sum) max_inputs))
  | .ok (key_inputs, key_outputs) =>
    if key_inputs < num_inputs ∨ key_outputs < num_outputs then none
    else if num_inputs < key_inputs then none
    else some (.ok (key_inputs, key_outputs))

/-- `WalletState::find_native_record_for_fee`:
`find_records(native, me, Unfrozen, fee, max_records = 1)` and take the
first returned record (`unwrap`, unreachable on an empty success). -/
def find_native_record_for_fee (s : WalletState) (me fee : Nat) :
    Option (Except WalletError (RecordOpening × Nat)) :=
  match find_records s.records s.prev_commit_time NATIVE_ASSET me false fee (some 1) with
  | .error e => some (.error e)
  | .ok (ros, _) =>
    match ros.head? with
    | some r => some (.ok r)
    | none => none

/-- Resolution of receiver addresses through `backend.get_public_key`
(`InvalidAddress` on unknown addresses). -/
def resolveReceivers (get_public_key : Nat → Option Nat) :
    List (Nat × Nat) → Except WalletError (List (Nat × Nat))
  | [] => .ok []
  | (addr, amt) :: rest =>
    match get_public_key addr with
    | none => .error (.InvalidAddress addr)
    | some pk =>
      match resolveReceivers get_public_key rest with
      | .error e => .error e
      | .ok tail => .ok ((pk, amt) :: tail)

/-- `WalletState::transfer_native`. -/
def transfer_native (recordRootHistorySize : Nat) (unul : RecordOpening → Nat → Nat)
    (best_fit : Nat → Nat → Except (Nat × Nat) (Nat × Nat))
    (gen_err sign_err : Option Nat) (backend_result : Option WalletError)
    (s : WalletState) (me : Nat) (receivers : List (Nat × Nat)) (fee : Nat) :
    Option (WalletState × SubmitOutcome) :=
  let total_output_amount := (receivers.map (fun r => r.2)).sum + fee
  match find_records s.records s.prev_commit_time NATIVE_ASSET me false
      total_output_amount none with
  | .error e => some (s, .localError e)
  | .ok (input_records, _change) =>
    let outputs := receivers.map (fun r => (⟨r.2, NATIVE_ASSET, r.1, false⟩ : RecordOpening))
    match xfr_proving_key best_fit me NATIVE_ASSET true input_records outputs false with
    | none => none
    | some (.error e) => some (s, .localError e)
    | some (.ok _) =>
      match gen_err with
      | some err => some (s, .localError (.CryptoError err))
      | none =>
        match sign_err with
        | some err => some (s, .localError (.CryptoError err))
        | none =>
          let nullifiers := input_records.map (fun p => unul p.1 p.2)
          submit_elaborated_transaction recordRootHistorySize backend_result s
            nullifiers 0 0 []

/-- `WalletState::transfer_non_native`. Unlike the native path, the
receiver-memo signing here is `unwrap`ed in the source, so a signing failure
is a panic (`sign_ok = false` gives `none`). -/
def transfer_non_native (recordRootHistorySize : Nat) (unul : RecordOpening → Nat → Nat)
    (best_fit : Nat → Nat → Except (Nat × Nat) (Nat × Nat))
    (gen_err : Option Nat) (sign_ok : Bool) (backend_result : Option WalletError)
    (s : WalletState) (me asset : Nat) (receivers : List (Nat × Nat)) (fee : Nat) :
    Option (WalletState × SubmitOutcome) :=
  let total_output_amount := (receivers.map (fun r => r.2)).sum
  match find_records s.records s.prev_commit_time asset me false
      total_output_amount none with
  | .error e => some (s, .localError e)
  | .ok (input_records, change) =>
    let outputs := receivers.map (fun r => (⟨r.2, asset, r.1, false⟩ : RecordOpening))
    let outputs :=
      if 0 < change then outputs ++ [⟨change, asset, me, false⟩] else outputs
    match find_native_record_for_fee s me fee with
    | none => none
    | some (.error e) => some (s, .localError e)
    | some (.ok (fee_ro, fee_uid)) =>
      match xfr_proving_key best_fit me asset false input_records outputs (0 < change) with
      | none => none
      | some (.error e) => some (s, .localError e)
      | some (.ok _) =>
        match gen_err with
        | some err => some (s, .localError (.CryptoError err))
        | none =>
          if sign_ok then
            let nullifiers :=
              unul fee_ro fee_uid :: input_records.map (fun p => unul p.1 p.2)
            submit_elaborated_transaction recordRootHistorySize backend_result s
              nullifiers 0 0 []
          else none

/-- `WalletState::transfer`: resolve receiver addresses, then dispatch on
whether the asset is native. -/
def transfer (recordRootHistorySize : Nat) (unul : RecordOpening → Nat → Nat)
    (best_fit : Nat → Nat → Except (Nat × Nat) (Nat × Nat))
    (get_public_key : Nat → Option Nat) (gen_err sign_err : Option Nat)
    (sign_ok : Bool) (backend_result : Option WalletError) (s : WalletState)
    (me asset : Nat) (receivers : List (Nat × Nat)) (fee : Nat) :
    Option (WalletState × SubmitOutcome) :=
  match resolveReceivers get_public_key receivers with
  | .error e => some (s, .localError e)
  | .ok rs =>
    if asset = NATIVE_ASSET then
      transfer_native recordRootHistorySize unul best_fit gen_err sign_err
        backend_result s me rs fee
    else
      transfer_non_native recordRootHistorySize unul best_fit gen_err sign_ok
        backend_result s me asset rs fee

/-- `WalletState::mint`: fee record, defined-asset lookup
(`UndefinedAsset`), owner resolution (`InvalidAddress`), then note
generation and signing; only the fee record is an input. -/
def mint (recordRootHistorySize : Nat) (unul : RecordOpening → Nat → Nat)
    (get_public_key : Nat → Option Nat) (gen_err : Option Nat) (sign_ok : Bool)
    (backend_result : Option WalletError) (s : WalletState)
    (me fee asset_code amount owner_addr : Nat) :
    Option (WalletState × SubmitOutcome) :=
  match find_native_record_for_fee s me fee with
  | none => none
  | some (.error e) => some (s, .localError e)
  | some (.ok (fee_ro, fee_uid)) =>
    match lookupA s.defined_assets asset_code with
    | none => some (s, .localError (.UndefinedAsset asset_code))
    | some _seed =>
      match get_public_key owner_addr with
      | none => some (s, .localError (.InvalidAddress owner_addr))
      | some _owner_pk =>
        match gen_err with
        | some err => some (s, .localError (.CryptoError err))
        | none =>
          if sign_ok then
            submit_elaborated_transaction recordRootHistorySize backend_result s
              [unul fee_ro fee_uid] 0 0 []
          else none

/-- `WalletState::freeze_or_unfreeze`: freezer-key check
(`InvalidFreezerKey`), owner resolution, input selection with the opposite
freeze flag, fee record, freeze proving key, then note generation. -/
def freeze_or_unfreeze (recordRootHistorySize : Nat)
    (fnul unul : RecordOpening → Nat → Nat)
    (best_fit : Nat → Nat → Except (Nat × Nat) (Nat × Nat))
    (get_public_key : Nat → Option Nat) (gen_err : Option Nat) (sign_ok : Bool)
    (backend_result : Option WalletError) (s : WalletState)
    (me my_freezer_key fee asset_code asset_freezer_key amount owner_addr : Nat)
    (outputs_frozen : Bool) : Option (WalletState × SubmitOutcome) :=
  if my_freezer_key ≠ asset_freezer_key then
    some (s, .localError (.InvalidFreezerKey my_freezer_key asset_freezer_key))
  else
    match get_public_key owner_addr with
    | none => some (s, .localError (.InvalidAddress owner_addr))
    | some owner =>
      let inputs_frozen := !outputs_frozen
      match find_records s.records s.prev_commit_time asset_code owner
          inputs_frozen amount none with
      | .error e => some (s, .localError e)
      | .ok (input_records, _) =>
        match find_native_record_for_fee s me fee with
        | none => none
        | some (.error e) => some (s, .localError e)
        | some (.ok (fee_ro, fee_uid)) =>
          match freeze_proving_key best_fit asset_code input_records with
          | none => none
          | some (.error e) => some (s, .localError e)
          | some (.ok _) =>
            match gen_err with
            | some err => some (s, .localError (.CryptoError err))
            | none =>
              if sign_ok then
                let nullifiers :=
                  unul fee_ro fee_uid :: input_records.map (fun p => fnul p.1 p.2)
                submit_elaborated_transaction recordRootHistorySize backend_result s
                  nullifiers 0 0 []
              else none

/-! ### The pending-transaction invariant and the wallet step relation -/

/-- The pending-transaction invariant together with the auxiliary facts that
make it inductive. `holds` is the claimed invariant: every input nullifier of
every pending transaction resolves to a record in the database whose hold is
exactly the pending timeout. `inBucket`/`bucketPend` state that the pending
map and the expiring index mirror each other, and `bucketFut` that every
expiring bucket lies strictly in the future of the validator time. -/
structure TxInv (s : WalletState) : Prop where
  holds : ∀ fn pt, lookupA s.pending_txns fn = some pt →
    ∃ ns, lookupA s.ghost_inflight fn = some ns ∧ ns.head? = some fn ∧
      ∀ n ∈ ns, ∃ uid r, lookupA s.records.nullifier_records n = some uid ∧
        lookupA s.records.record_info uid = some r ∧ r.hold_until = some pt.timeout
  inBucket : ∀ fn pt, lookupA s.pending_txns fn = some pt →
    fn ∈ bucketGet s.expiring_txns pt.timeout
  bucketPend : ∀ t b, lookupA s.expiring_txns t = some b →
    ∀ n ∈ b, ∃ pt, lookupA s.pending_txns n = some pt ∧ pt.timeout = t
  bucketFut : ∀ t b, lookupA s.expiring_txns t = some b → s.prev_commit_time < t

/-- Non-interference of a processed (committed or rejected) transaction with
the surviving pending transactions: no input record (uid) of `txn` is also an
input record of a pending transaction other than the one keyed by `txn`'s own
fee nullifier. In the running system this follows from the hold discipline
together with the validator's record-root history bound (a transaction whose
holds have expired can no longer pass validation), which lives outside this
repository. -/
def NoPendingShare (s : WalletState) (txn : ModelTxn) : Prop :=
  ∀ n ∈ txn.nullifiers, ∀ fn pt, some fn ≠ txn.nullifiers.head? →
    lookupA s.pending_txns fn = some pt →
    ∀ ns, lookupA s.ghost_inflight fn = some ns →
    ∀ n2 ∈ ns, ∀ u u2, lookupA s.records.nullifier_records n = some u →
      lookupA s.records.nullifier_records n2 = some u2 → u ≠ u2

/-- Freshness of a batch of inserted records: each inserted uid is a new
Merkle leaf and each derived nullifier is new. In the running system this is
guaranteed by the ledger (output uids are fresh leaf positions) and by the
injectivity of nullifier derivation. -/
def FreshInserts (nul : RecordOpening → Nat → Nat) (s : WalletState)
    (pairs : List (Nat × RecordOpening)) : Prop :=
  ∀ p ∈ pairs, lookupA s.records.record_info p.1 = none ∧
    lookupA s.records.nullifier_records (nul p.2 p.1) = none

/-- Pending entries of an intermediate state `si` are anchored in the event's
entry state `s0`: they already existed there with the same ghost input list,
and their input nullifiers resolve to the same uids, which are live in `s0`. -/
def Anchored (s0 si : WalletState) : Prop :=
  ∀ fn pt, lookupA si.pending_txns fn = some pt →
    lookupA s0.pending_txns fn = some pt ∧
    (∀ ns, lookupA si.ghost_inflight fn = some ns →
      lookupA s0.ghost_inflight fn = some ns ∧
      ∀ n ∈ ns, ∀ u, lookupA si.records.nullifier_records n = some u →
        lookupA s0.records.nullifier_records n = some u ∧
        (lookupA s0.records.record_info u).isSome)

/-- Every nullifier entry of an intermediate state either already existed in
the entry state or points at a uid that was not live there. -/
def NulGrowth (s0 si : WalletState) : Prop :=
  ∀ n u, lookupA si.records.nullifier_records n = some u →
    lookupA s0.records.nullifier_records n = some u ∨
    lookupA s0.records.record_info u = none

/-- All input records of `txn` that are present in the database carry no
hold. -/
def HoldsReleased (s : WalletState) (txn : ModelTxn) : Prop :=
  ∀ n ∈ txn.nullifiers, ∀ u r, lookupA s.records.nullifier_records n = some u →
    lookupA s.records.record_info u = some r → r.hold_until = none

/-- One state-mutating step of the wallet. Every ledger event and every user
call decomposes into a sequence of these steps: a user call either returns a
local error without touching the state or performs `submit`; a commit event
is `bumpClock` (when local validation fails) or `advanceExpire` followed by
one `commitTxn` per transaction of the block; a reject event is `bumpClock`
followed by one `rejectTxn` per transaction. The side conditions of
`commitTxn`/`rejectTxn` are the environment guarantees described at
`NoPendingShare` and `FreshInserts`. -/
inductive WStep (fnul unul : RecordOpening → Nat → Nat) (rrhs : Nat) :
    WalletState → WalletState → Prop where
  | submit : ∀ s s' nulls memos sig fo,
      add_pending_transaction rrhs s nulls memos sig fo = some s' →
      WStep fnul unul rrhs s s'
  | bumpClock : ∀ s, WStep fnul unul rrhs s { s with now := s.now + 1 }
  | advanceExpire : ∀ s s',
      clear_expired_transactions
        { s with now := s.now + 1, prev_commit_time := s.prev_commit_time + 1 } = some s' →
      WStep fnul unul rrhs s s'
  | commitTxn : ∀ s s' txn this_uids auditIns recvIns,
      NoPendingShare s txn →
      FreshInserts fnul s auditIns →
      FreshInserts unul s recvIns →
      (∀ n0 rest pt, txn.nullifiers = n0 :: rest →
        lookupA s.pending_txns n0 = some pt →
        FreshInserts fnul s ((this_uids.drop 1).zip pt.freeze_outputs)) →
      process_commit_txn fnul unul s txn this_uids auditIns recvIns = some s' →
      WStep fnul unul rrhs s s'
  | rejectTxn : ∀ s s' txn err subs,
      NoPendingShare s txn →
      process_reject_txn fnul rrhs s txn err = some (s', subs) →
      WStep fnul unul rrhs s s'

/-! ### Encrypted persistent store (`persistence.rs`, `AtomicWalletStorage`)

The underlying `atomic_store` crate (RollingLog / AppendLog / AtomicStore)
is an external collaborator. Modelled from the spec: a stream keeps a
history of committed versions (one entry per version, `[]` being a skip
marker) and a list of uncommitted writes; `store_resource` appends an
uncommitted write, `commit_version` persists the uncommitted writes as a new
version, `skip_version` emits a skip marker, `revert_version` discards the
uncommitted writes; only committed versions are readable. Payloads are
abstracted as naturals. -/

namespace Persist

/-- One persisted stream. -/
structure Stream where
  history : List (List Nat)
  pending : List Nat
deriving DecidableEq, Repr

/-- `store_resource`. -/
def Stream.store (st : Stream) (x : Nat) : Stream :=
  { st with pending := st.pending ++ [x] }

/-- `commit_version`. -/
def Stream.commitVersion (st : Stream) : Stream :=
  ⟨st.history ++ [st.pending], []⟩

/-- `skip_version`. -/
def Stream.skipVersion (st : Stream) : Stream :=
  { st with history := st.history ++ [[]] }

/-- `revert_version`. -/
def Stream.revertVersion (st : Stream) : Stream :=
  { st with pending := [] }

/-- All committed resources, oldest first (AppendLog iteration). -/
def Stream.committed (st : Stream) : List Nat :=
  st.history.flatten

/-- The latest committed resource (RollingLog::load_latest). -/
def Stream.loadLatest (st : Stream) : Option Nat :=
  st.committed.getLast?

/-- `AtomicWalletStorage`: five streams, their dirty flags, and the version
counter of the parent atomic store. -/
structure Storage where
  persisted_meta : Stream
  meta_dirty : Bool
  static_data : Stream
  static_dirty : Bool
  dynamic_state : Stream
  dynamic_state_dirty : Bool
  auditable_assets : Stream
  auditable_assets_dirty : Bool
  defined_assets : Stream
  defined_assets_dirty : Bool
  store_version : Nat
deriving DecidableEq, Repr

/-- Metadata write (from `create`). -/
def storeMeta (st : Storage) (x : Nat) : Storage :=
  { st with persisted_meta := st.persisted_meta.store x, meta_dirty := true }

/-- Static-data write (from `create`). -/
def storeStatic (st : Storage) (x : Nat) : Storage :=
  { st with static_data := st.static_data.store x, static_dirty := true }

/-- `store_snapshot`. -/
def storeSnapshot (st : Storage) (x : Nat) : Storage :=
  { st with dynamic_state := st.dynamic_state.store x, dynamic_state_dirty := true }

/-- `store_auditable_asset`. -/
def storeAuditable (st : Storage) (x : Nat) : Storage :=
  { st with auditable_assets := st.auditable_assets.store x, auditable_assets_dirty := true }

/-- `store_defined_asset`. -/
def storeDefined (st : Storage) (x : Nat) : Storage :=
  { st with defined_assets := st.defined_assets.store x, defined_assets_dirty := true }

/-- `commit`: advance (commit) every dirty stream, emit a skip marker on the
clean ones, commit the parent store, clear all dirty flags. -/
def commit (st : Storage) : Storage :=
  { persisted_meta :=
      if st.meta_dirty then st.persisted_meta.commitVersion else st.persisted_meta.skipVersion,
    static_data :=
      if st.static_dirty then st.static_data.commitVersion else st.static_data.skipVersion,
    dynamic_state :=
      if st.dynamic_state_dirty then st.dynamic_state.commitVersion
      else st.dynamic_state.skipVersion,
    auditable_assets :=
      if st.auditable_assets_dirty then st.auditable_assets.commitVersion
      else st.auditable_assets.skipVersion,
    defined_assets :=
      if st.defined_assets_dirty then st.defined_assets.commitVersion
      else st.defined_assets.skipVersion,
    store_version := st.store_version + 1,
    meta_dirty := false,
    static_dirty := false,
    dynamic_state_dirty := false,
    auditable_assets_dirty := false,
    defined_assets_dirty := false }

/-- `revert`: discard the uncommitted writes of every stream. Note that the
source does not clear the dirty flags here. -/
def revert (st : Storage) : Storage :=
  { st with
    persisted_meta := st.persisted_meta.revertVersion,
    static_data := st.static_data.revertVersion,
    dynamic_state := st.dynamic_state.revertVersion,
    auditable_assets := st.auditable_assets.revertVersion,
    defined_assets := st.defined_assets.revertVersion }

/-- `load` (together with `exists`): the observable on-disk content — the
latest static and dynamic snapshots, the replayed append logs, and whether
the metadata snapshot was ever committed. -/
def load (st : Storage) : Option Nat × Option Nat × List Nat × List Nat × Bool :=
  (st.static_data.loadLatest, st.dynamic_state.loadLatest,
   st.auditable_assets.committed, st.defined_assets.committed,
   st.persisted_meta.loadLatest.isSome)

/-- An uncommitted write to one of the five streams. -/
inductive WOp where
  | meta (x : Nat)
  | static (x : Nat)
  | snapshot (x : Nat)
  | auditable (x : Nat)
  | defined (x : Nat)
deriving DecidableEq, Repr

/-- Apply one write. -/
def applyOp (st : Storage) : WOp → Storage
  | .meta x => storeMeta st x
  | .static x => storeStatic st x
  | .snapshot x => storeSnapshot st x
  | .auditable x => storeAuditable st x
  | .defined x => storeDefined st x

/-- Apply a sequence of writes. -/
def applyAll (st : Storage) (ws : List WOp) : Storage :=
  ws.foldl applyOp st

end Persist

/-! ### Multi-process launcher (`multi_machine_automation.rs`) -/

namespace Launcher

/-- The success threshold: `((num_nodes * 2) / 3) + 1`. -/
def threshold (num_nodes : Nat) : Nat :=
  num_nodes * 2 / 3 + 1

/-- The output-scanning loop of `main`: each node either printed a
`Round num_txn completed. Commitment: c` line (`some c`) or not (`none`).
The first completed commitment is recorded; a later differing commitment
fails `assert_eq!` (modelled as `none` = panic); matching commitments
increment `succeeded_nodes`. -/
def scanOutputs : List (Option Nat) → Option Nat → Nat → Option Nat
  | [], _, succeeded => some succeeded
  | none :: rest, comm, succeeded => scanOutputs rest comm succeeded
  | some c :: rest, comm, succeeded =>
    match comm with
    | none => scanOutputs rest (some c) (succeeded + 1)
    | some c0 =>
      if c = c0 then scanOutputs rest (some c0) (succeeded + 1) else none

/-- Whether `main` exits with code 0: the commitment scan must not panic
(commitments must agree) and `assert!(succeeded_nodes >= threshold)` must
pass. With `--num_txn` absent the scanning body is skipped and
`succeeded_nodes` stays 0. -/
def exitOk (num_nodes : Nat) (num_txn : Option Nat) (outputs : List (Option Nat)) : Bool :=
  match num_txn with
  | none => decide (threshold num_nodes ≤ 0)
  | some _ =>
    match scanOutputs outputs none 0 with
    | none => false
    | some succeeded => decide (threshold num_nodes ≤ succeeded)

/-- The number of nodes that completed the final round, in the claim's
reading (`succeeded_nodes`): nodes whose commitment matches the first
completed one. -/
def matchingCount (outputs : List (Option Nat)) : Nat :=
  match outputs.filterMap id with
  | [] => 0
  | c :: rest => ((c :: rest).filter (fun x => x == c)).length

end Launcher

/-! ### Concrete fixtures used by the witnesses -/

/-- A small database: two unfrozen records of asset 0 owned by key 7, of
amounts 5 (uid 1, nullifier 100) and 3 (uid 2, nullifier 101). -/
def dbW : RecordDatabase :=
  ((RecordDatabase.mk [] [] []).insert_with_nullifier ⟨5, 0, 7, false⟩ 1 100).insert_with_nullifier
    ⟨3, 0, 7, false⟩ 2 101

/-- A database holding a single zero-amount (dummy) record of asset 0 owned
by key 7 (uid 1, nullifier 100), not on hold. -/
def db9 : RecordDatabase :=
  (RecordDatabase.mk [] [] []).insert_with_nullifier ⟨0, 0, 7, false⟩ 1 100

/-- A wallet state over `dbW` with no pending transactions. -/
def sW : WalletState :=
  { now := 0, prev_commit_time := 0, records := dbW, nullifier_set := [],
    pending_txns := [], expiring_txns := [], defined_assets := [],
    ghost_inflight := [] }

/-- Identity-style nullifier oracle for the witnesses. -/
def nulW : RecordOpening → Nat → Nat := fun _ uid => uid

/-- The state after submitting, over `sW`, a transaction with the single
input nullifier 100 (record uid 1) with `RECORD_ROOT_HISTORY_SIZE = 2`:
the record is on hold until time 2 and the pending entry is indexed. -/
def sW1 : WalletState :=
  { now := 0, prev_commit_time := 0,
    records :=
      { record_info :=
          [(1, ⟨⟨5, 0, 7, false⟩, 1, some 2⟩), (2, ⟨⟨3, 0, 7, false⟩, 2, none⟩)],
        asset_records := [((0, 7, false), [(3, 2), (5, 1)])],
        nullifier_records := [(101, 2), (100, 1)] },
    nullifier_set := [],
    pending_txns := [(100, ⟨0, 0, [], 2⟩)],
    expiring_txns := [(2, [100])],
    defined_assets := [],
    ghost_inflight := [(100, [100])] }

/-! ## Theorems -/

/-! ### Association-list lemmas -/

theorem lookupA_eraseA {κ α : Type} [DecidableEq κ] (l : List (κ × α)) (k k2 : κ) :
    lookupA (eraseA l k) k2 = if k2 = k then none else lookupA l k2 := by
  induction l with
  | nil => simp [eraseA, lookupA]
  | cons p rest ih =>
    obtain ⟨k1, v⟩ := p
    by_cases h1 : k = k1
    · subst h1
      have hrw : eraseA ((k, v) :: rest) k = eraseA rest k := by simp [eraseA]
      rw [hrw, ih]
      by_cases h2 : k2 = k <;> simp [lookupA, h2]
    · have hrw : eraseA ((k1, v) :: rest) k = (k1, v) :: eraseA rest k := by
        simp [eraseA, h1]
      rw [hrw]
      by_cases h2 : k2 = k1
      · subst h2
        have hne : ¬ k2 = k := fun h => h1 h.symm
        simp [lookupA, hne]
      · simp [lookupA, h2, ih]

theorem lookupA_insertA {κ α : Type} [DecidableEq κ] (l : List (κ × α)) (k k2 : κ) (v : α) :
    lookupA (insertA l k v) k2 = if k2 = k then some v else lookupA l k2 := by
  by_cases h : k2 = k <;> simp [insertA, lookupA, h, lookupA_eraseA]

theorem mem_insertSet (n m : Nat) (l : List Nat) :
    m ∈ insertSet n l ↔ m = n ∨ m ∈ l := by
  by_cases h : n ∈ l
  · simp only [insertSet, if_pos h]
    constructor
    · exact fun hm => Or.inr hm
    · rintro (rfl | hm) <;> [exact h; exact hm]
  · simp [insertSet, if_neg h]

theorem mem_eraseL (l : List Nat) (n m : Nat) :
    m ∈ eraseL l n ↔ m ∈ l ∧ m ≠ n := by
  induction l with
  | nil => simp [eraseL]
  | cons x rest ih =>
    by_cases h : x = n
    · subst h
      have hrw : eraseL (x :: rest) x = eraseL rest x := by simp [eraseL]
      rw [hrw, ih, List.mem_cons]
      constructor
      · rintro ⟨hm, hne⟩; exact ⟨Or.inr hm, hne⟩
      · rintro ⟨hm | hm, hne⟩
        · exact absurd hm hne
        · exact ⟨hm, hne⟩
    · have hrw : eraseL (x :: rest) n = x :: eraseL rest n := by simp [eraseL, h]
      rw [hrw, List.mem_cons, List.mem_cons, ih]
      constructor
      · rintro (rfl | ⟨hm, hne⟩)
        · exact ⟨Or.inl rfl, fun hx => h (hx ▸ rfl)⟩
        · exact ⟨Or.inr hm, hne⟩
      · rintro ⟨rfl | hm, hne⟩
        · exact Or.inl rfl
        · exact Or.inr ⟨hm, hne⟩

theorem bucketGet_bucketInsert (e : List (Nat × List Nat)) (t n t2 : Nat) :
    bucketGet (bucketInsert e t n) t2 =
      if t2 = t then insertSet n (bucketGet e t) else bucketGet e t2 := by
  by_cases h : t2 = t <;> simp [bucketGet, bucketInsert, lookupA_insertA, h]

theorem lookupA_bucketInsert (e : List (Nat × List Nat)) (t n t2 : Nat) :
    lookupA (bucketInsert e t n) t2 =
      if t2 = t then some (insertSet n (bucketGet e t)) else lookupA e t2 := by
  by_cases h : t2 = t <;> simp [bucketInsert, lookupA_insertA, h]

theorem lookupA_bucketErase (e : List (Nat × List Nat)) (t n t2 : Nat) :
    lookupA (bucketErase e t n) t2 =
      match lookupA e t with
      | none => lookupA e t2
      | some b => if t2 = t then some (eraseL b n) else lookupA e t2 := by
  unfold bucketErase
  cases hb : lookupA e t with
  | none => simp
  | some b => by_cases h : t2 = t <;> simp [lookupA_insertA, h]

/-! ### C6: encrypted persistent store, revert/commit semantics -/

theorem persist_applyAll_histories (st : Persist.Storage) (ws : List Persist.WOp) :
    (Persist.applyAll st ws).persisted_meta.history = st.persisted_meta.history ∧
    (Persist.applyAll st ws).static_data.history = st.static_data.history ∧
    (Persist.applyAll st ws).dynamic_state.history = st.dynamic_state.history ∧
    (Persist.applyAll st ws).auditable_assets.history = st.auditable_assets.history ∧
    (Persist.applyAll st ws).defined_assets.history = st.defined_assets.history := by
  induction ws generalizing st with
  | nil => exact ⟨rfl, rfl, rfl, rfl, rfl⟩
  | cons w rest ih =>
    have h : Persist.applyAll st (w :: rest) = Persist.applyAll (Persist.applyOp st w) rest := by
      simp [Persist.applyAll]
    rw [h]
    have ih2 := ih (Persist.applyOp st w)
    cases w <;>
      simpa [Persist.applyOp, Persist.storeMeta, Persist.storeStatic,
        Persist.storeSnapshot, Persist.storeAuditable, Persist.storeDefined,
        Persist.Stream.store] using ih2

theorem persist_load_of_histories (a b : Persist.Storage)
    (h1 : a.persisted_meta.history = b.persisted_meta.history)
    (h2 : a.static_data.history = b.static_data.history)
    (h3 : a.dynamic_state.history = b.dynamic_state.history)
    (h4 : a.auditable_assets.history = b.auditable_assets.history)
    (h5 : a.defined_assets.history = b.defined_assets.history) :
    Persist.load a = Persist.load b := by
  simp [Persist.load, Persist.Stream.loadLatest, Persist.Stream.committed,
    h1, h2, h3, h4, h5]

/-- C6: after any sequence of uncommitted writes to the five streams,
`revert()` discards all of them, so a subsequent `load()` yields the
pre-write state; a `commit()` issued after the revert persists none of the
reverted writes; and `commit()` advances every stream by exactly one
version — the uncommitted writes for a dirty stream, a skip marker (an empty
version) for the others — before committing the parent atomic store. -/
theorem c6_storage_revert_commit :
    ∀ (st : Persist.Storage) (ws : List Persist.WOp),
      Persist.load (Persist.revert (Persist.applyAll st ws)) = Persist.load st ∧
      Persist.load (Persist.commit (Persist.revert (Persist.applyAll st ws))) =
        Persist.load st ∧
      (∀ st2 : Persist.Storage,
        (Persist.commit st2).persisted_meta.history =
          st2.persisted_meta.history ++
            [if st2.meta_dirty then st2.persisted_meta.pending else []] ∧
        (Persist.commit st2).static_data.history =
          st2.static_data.history ++
            [if st2.static_dirty then st2.static_data.pending else []] ∧
        (Persist.commit st2).dynamic_state.history =
          st2.dynamic_state.history ++
            [if st2.dynamic_state_dirty then st2.dynamic_state.pending else []] ∧
        (Persist.commit st2).auditable_assets.history =
          st2.auditable_assets.history ++
            [if st2.auditable_assets_dirty then st2.auditable_assets.pending else []] ∧
        (Persist.commit st2).defined_assets.history =
          st2.defined_assets.history ++
            [if st2.defined_assets_dirty then st2.defined_assets.pending else []] ∧
        (Persist.commit st2).store_version = st2.store_version + 1) := by
  intro st ws
  obtain ⟨h1, h2, h3, h4, h5⟩ := persist_applyAll_histories st ws
  refine ⟨?_, ?_, ?_⟩
  · exact persist_load_of_histories _ _
      (by simp [Persist.revert, Persist.Stream.revertVersion, h1])
      (by simp [Persist.revert, Persist.Stream.revertVersion, h2])
      (by simp [Persist.revert, Persist.Stream.revertVersion, h3])
      (by simp [Persist.revert, Persist.Stream.revertVersion, h4])
      (by simp [Persist.revert, Persist.Stream.revertVersion, h5])
  · have hcr : ∀ (str : Persist.Stream) (d : Bool),
        (if d then (str.revertVersion).commitVersion else (str.revertVersion).skipVersion).history =
          str.history ++ [[]] := by
      intro str d
      cases d <;>
        simp [Persist.Stream.revertVersion, Persist.Stream.commitVersion,
          Persist.Stream.skipVersion]
    simp only [Persist.load, Persist.Stream.loadLatest, Persist.Stream.committed,
      Persist.commit, Persist.revert, hcr, h1, h2, h3, h4, h5]
    simp
  · intro st2
    refine ⟨?_, ?_, ?_, ?_, ?_, rfl⟩ <;>
      · simp only [Persist.commit, Persist.Stream.commitVersion, Persist.Stream.skipVersion]
        split <;> simp

/-! ### C7: multi-process launcher exit condition -/

theorem scanOutputs_some_comm (outs : List (Option Nat)) (c0 : Nat) :
    ∀ acc s, Launcher.scanOutputs outs (some c0) acc = some s ↔
      ((∀ c ∈ outs.filterMap id, c = c0) ∧ s = acc + (outs.filterMap id).length) := by
  induction outs with
  | nil => intro acc s; simp [Launcher.scanOutputs, eq_comm]
  | cons o rest ih =>
    intro acc s
    cases o with
    | none => simpa [Launcher.scanOutputs] using ih acc s
    | some c =>
      by_cases h : c = c0
      · subst h
        rw [show Launcher.scanOutputs (some c :: rest) (some c) acc =
              Launcher.scanOutputs rest (some c) (acc + 1) from by
            simp [Launcher.scanOutputs]]
        rw [ih (acc + 1) s]
        constructor
        · rintro ⟨hall, hs⟩
          refine ⟨?_, by simpa [Nat.add_assoc, Nat.add_comm 1] using hs⟩
          intro x hx
          simp only [List.filterMap_cons, id] at hx
          rcases List.mem_cons.mp hx with rfl | hx
          · rfl
          · exact hall x hx
        · rintro ⟨hall, hs⟩
          refine ⟨fun x hx => hall x (by simp [hx]), ?_⟩
          simp only [List.filterMap_cons, id, List.length_cons] at hs
          omega
      · simp only [Launcher.scanOutputs, if_neg h]
        constructor
        · intro hc; exact absurd hc (by simp)
        · rintro ⟨hall, _⟩
          exact absurd (hall c (by simp)) h

theorem allSame_cons (c : Nat) (t : List Nat) :
    (∀ a ∈ c :: t, ∀ b ∈ c :: t, a = b) ↔ (∀ a ∈ t, a = c) := by
  constructor
  · intro h a ha
    exact h a (List.mem_cons_of_mem _ ha) c (List.mem_cons_self _ _)
  · intro h a ha b hb
    have hac : a = c ∨ a ∈ t := List.mem_cons.mp ha
    have hbc : b = c ∨ b ∈ t := List.mem_cons.mp hb
    rcases hac with hac | hac <;> rcases hbc with hbc | hbc
    · rw [hac, hbc]
    · rw [hac, h b hbc]
    · rw [h a hac, hbc]
    · rw [h a hac, h b hbc]

theorem scanOutputs_none_comm (outs : List (Option Nat)) :
    ∀ s, Launcher.scanOutputs outs none 0 = some s ↔
      ((∀ c ∈ outs.filterMap id, ∀ c2 ∈ outs.filterMap id, c = c2) ∧
       s = (outs.filterMap id).length) := by
  induction outs with
  | nil => intro s; simp [Launcher.scanOutputs, eq_comm]
  | cons o rest ih =>
    intro s
    cases o with
    | none => simpa [Launcher.scanOutputs] using ih s
    | some c =>
      have hfm : (some c :: rest).filterMap id = c :: rest.filterMap id := by simp
      simp only [Launcher.scanOutputs]
      rw [scanOutputs_some_comm rest c 1 s, hfm, allSame_cons]
      constructor
      · rintro ⟨hall, hs⟩
        refine ⟨hall, ?_⟩
        simp only [List.length_cons]
        omega
      · rintro ⟨hall, hs⟩
        refine ⟨hall, ?_⟩
        simp only [List.length_cons] at hs
        omega

/-- C7 (amended): the launcher exits with code 0 iff `--num_txn` was given,
all nodes that completed the final round printed the same commitment, and
the number of nodes that completed it is at least `⌊2·num_nodes/3⌋ + 1`. -/
theorem c7_launcher_exit_condition :
    ∀ (num_nodes : Nat) (num_txn : Option Nat) (outputs : List (Option Nat)),
      Launcher.exitOk num_nodes num_txn outputs = true ↔
        (num_txn.isSome = true ∧
         (∀ c ∈ outputs.filterMap id, ∀ c2 ∈ outputs.filterMap id, c = c2) ∧
         Launcher.threshold num_nodes ≤ (outputs.filterMap id).length) := by
  intro num_nodes num_txn outputs
  cases num_txn with
  | none =>
    simp only [Launcher.exitOk, Option.isSome_none]
    constructor
    · intro h
      exact absurd (of_decide_eq_true h) (by simp [Launcher.threshold])
    · rintro ⟨h, -⟩; cases h
  | some t =>
    simp only [Launcher.exitOk, Option.isSome_some, true_and]
    cases hscan : Launcher.scanOutputs outputs none 0 with
    | none =>
      simp only []
      constructor
      · intro h; cases h
      · rintro ⟨hall, hlen⟩
        obtain ⟨s, hs⟩ : ∃ s, Launcher.scanOutputs outputs none 0 = some s :=
          ⟨(outputs.filterMap id).length,
            (scanOutputs_none_comm outputs _).mpr ⟨hall, rfl⟩⟩
        rw [hscan] at hs; cases hs
    | some s =>
      obtain ⟨hall, hs⟩ := (scanOutputs_none_comm outputs s).mp hscan
      subst hs
      simp only [decide_eq_true_eq]
      exact ⟨fun h => ⟨hall, h⟩, fun h => h.2⟩

/-- C7 counterexample: with 6 nodes, five of which completed the final round
with commitment 1 and one with commitment 2, the count of nodes that
completed the round with matching commitments is 5 ≥ ⌊2·6/3⌋ + 1 = 5, yet
the launcher panics at the commitment `assert_eq!` and does not exit 0 — so
"exit code 0 iff succeeded_nodes ≥ ⌊2n/3⌋ + 1" fails. -/
theorem c7_counterexample :
    Launcher.exitOk 6 (some 1) [some 1, some 1, some 1, some 1, some 1, some 2] = false ∧
    Launcher.threshold 6 ≤
      Launcher.matchingCount [some 1, some 1, some 1, some 1, some 1, some 2] := by
  constructor <;> decide

/-! ### C10: `remove_by_nullifier` -/

theorem lookupA_mem {κ α : Type} [DecidableEq κ] (l : List (κ × α)) (k : κ) (v : α) :
    lookupA l k = some v → (k, v) ∈ l := by
  induction l with
  | nil => intro h; cases h
  | cons p rest ih =>
    obtain ⟨k1, v1⟩ := p
    intro h
    by_cases hk : k = k1
    · subst hk
      simp only [lookupA, if_pos rfl] at h
      have hv := Option.some.inj h
      subst hv
      exact List.mem_cons_self _ _
    · simp only [lookupA, if_neg hk] at h
      exact List.mem_cons_of_mem _ (ih h)

theorem mem_btErase (l : List (Nat × Nat)) (x p : Nat × Nat) :
    p ∈ btErase l x ↔ p ∈ l ∧ p ≠ x := by
  induction l with
  | nil => simp [btErase]
  | cons y rest ih =>
    by_cases h : y = x
    · subst h
      have hrw : btErase (y :: rest) y = btErase rest y := by simp [btErase]
      rw [hrw, ih, List.mem_cons]
      constructor
      · rintro ⟨hm, hne⟩; exact ⟨Or.inr hm, hne⟩
      · rintro ⟨hm | hm, hne⟩
        · exact absurd hm hne
        · exact ⟨hm, hne⟩
    · have hrw : btErase (y :: rest) x = y :: btErase rest x := by simp [btErase, h]
      rw [hrw, List.mem_cons, List.mem_cons, ih]
      constructor
      · rintro (rfl | ⟨hm, hne⟩)
        · exact ⟨Or.inl rfl, fun hx => h hx⟩
        · exact ⟨Or.inr hm, hne⟩
      · rintro ⟨rfl | hm, hne⟩
        · exact Or.inl rfl
        · exact Or.inr ⟨hm, hne⟩

theorem wfb_nullifier_live (db : RecordDatabase) (hwf : wfb db = true)
    (n uid : Nat) (h : lookupA db.nullifier_records n = some uid) :
    ∃ r, lookupA db.record_info uid = some r := by
  have hmem := lookupA_mem _ _ _ h
  simp only [wfb, Bool.and_eq_true] at hwf
  obtain ⟨⟨hw1, hw2⟩, hw3⟩ := hwf
  rw [List.all_eq_true] at hw1
  have := hw1 (n, uid) hmem
  simpa [Option.isSome_iff_exists] using this

theorem wfb_record_bucket (db : RecordDatabase) (hwf : wfb db = true)
    (uid : Nat) (r : RecordInfo) (h : lookupA db.record_info uid = some r) :
    (r.ro.amount, uid) ∈ db.bucket r.ro.key := by
  have hmem := lookupA_mem _ _ _ h
  simp only [wfb, Bool.and_eq_true] at hwf
  obtain ⟨⟨hw1, hw2⟩, hw3⟩ := hwf
  rw [List.all_eq_true] at hw2
  have := hw2 (uid, r) hmem
  simp only [Bool.and_eq_true, decide_eq_true_eq] at this
  exact this.2

/-- C10: `remove_by_nullifier` on an absent nullifier returns `None` and
leaves all three indices unchanged; on a present nullifier it removes the
corresponding record from all three indices (touching no other entry) and
returns that record. -/
theorem c10_remove_by_nullifier :
    ∀ (db : RecordDatabase) (n : Nat), wfb db = true →
      (lookupA db.nullifier_records n = none →
        db.remove_by_nullifier n = (none, db)) ∧
      (∀ uid, lookupA db.nullifier_records n = some uid →
        ∃ r db2, lookupA db.record_info uid = some r ∧
          db.remove_by_nullifier n = (some r, db2) ∧
          lookupA db2.record_info uid = none ∧
          lookupA db2.nullifier_records n = none ∧
          (r.ro.amount, uid) ∉ db2.bucket r.ro.key ∧
          (∀ u2, u2 ≠ uid → lookupA db2.record_info u2 = lookupA db.record_info u2) ∧
          (∀ n2, n2 ≠ n → lookupA db2.nullifier_records n2 = lookupA db.nullifier_records n2) ∧
          (∀ key, key ≠ r.ro.key → lookupA db2.asset_records key = lookupA db.asset_records key) ∧
          (∀ p, p ≠ (r.ro.amount, uid) → (p ∈ db2.bucket r.ro.key ↔ p ∈ db.bucket r.ro.key))) := by
  intro db n hwf
  constructor
  · intro hn
    simp [RecordDatabase.remove_by_nullifier, hn]
  · intro uid hn
    obtain ⟨r, hr⟩ := wfb_nullifier_live db hwf n uid hn
    have hbmem : (r.ro.amount, uid) ∈ db.bucket r.ro.key := wfb_record_bucket db hwf uid r hr
    obtain ⟨b, hb⟩ : ∃ b, lookupA db.asset_records r.ro.key = some b := by
      cases hbl : lookupA db.asset_records r.ro.key with
      | none =>
        rw [RecordDatabase.bucket, hbl] at hbmem
        simp at hbmem
      | some b => exact ⟨b, rfl⟩
    have hbucket : db.bucket r.ro.key = b := by simp [RecordDatabase.bucket, hb]
    refine ⟨r,
      { record_info := eraseA db.record_info uid,
        asset_records := insertA db.asset_records r.ro.key (btErase b (r.ro.amount, uid)),
        nullifier_records := eraseA db.nullifier_records n },
      hr, ?_, ?_, ?_, ?_, ?_, ?_, ?_, ?_⟩
    · simp [RecordDatabase.remove_by_nullifier, hn, hr, hb]
    · simp [lookupA_eraseA]
    · simp [lookupA_eraseA]
    · simp [RecordDatabase.bucket, lookupA_insertA, mem_btErase]
    · intro u2 hu2
      simp [lookupA_eraseA, hu2]
    · intro n2 hn2
      simp [lookupA_eraseA, hn2]
    · intro key hkey
      simp [lookupA_insertA, hkey]
    · intro p hp
      simp [RecordDatabase.bucket, lookupA_insertA, mem_btErase, hb, hp]

/-- C10 witness: in the concrete database `dbW`, nullifier 999 is absent and
`remove_by_nullifier` leaves the database untouched. -/
theorem c10_witness : dbW.remove_by_nullifier 999 = (none, dbW) :=
  (c10_remove_by_nullifier dbW 999 (by decide)).1 (by decide)

/-! ### C1 and C9: `find_records` -/

theorem pairLt_trans {a b c : Nat × Nat} (h1 : pairLt a b) (h2 : pairLt b c) :
    pairLt a c := by
  unfold pairLt at *
  omega

theorem sortedBucket_pairwise : ∀ l : List (Nat × Nat), sortedBucket l = true →
    List.Pairwise pairLt l := by
  intro l
  induction l with
  | nil => intro _; exact List.Pairwise.nil
  | cons x rest ih =>
    cases rest with
    | nil => intro _; simp
    | cons y rest2 =>
      intro h
      simp only [sortedBucket, Bool.and_eq_true, decide_eq_true_eq] at h
      have hp := ih (by simpa [sortedBucket] using h.2)
      refine List.Pairwise.cons ?_ hp
      intro z hz
      rcases List.mem_cons.mp hz with rfl | hz
      · exact h.1
      · exact pairLt_trans h.1 (List.rel_of_pairwise_cons hp hz)

theorem wfb_record_uid (db : RecordDatabase) (hwf : wfb db = true)
    (uid : Nat) (r : RecordInfo) (h : lookupA db.record_info uid = some r) :
    r.uid = uid := by
  have hmem := lookupA_mem _ _ _ h
  simp only [wfb, Bool.and_eq_true] at hwf
  obtain ⟨⟨hw1, hw2⟩, hw3⟩ := hwf
  rw [List.all_eq_true] at hw2
  have := hw2 (uid, r) hmem
  simp only [Bool.and_eq_true, beq_iff_eq] at this
  exact this.1

theorem wfb_bucket_entry (db : RecordDatabase) (hwf : wfb db = true)
    (key : AssetKey) (b : List (Nat × Nat)) (hb : lookupA db.asset_records key = some b) :
    sortedBucket b = true ∧
    ∀ q ∈ b, ∃ r, lookupA db.record_info q.2 = some r ∧
      r.ro.amount = q.1 ∧ r.ro.key = key := by
  have hmem := lookupA_mem _ _ _ hb
  simp only [wfb, Bool.and_eq_true] at hwf
  obtain ⟨⟨hw1, hw2⟩, hw3⟩ := hwf
  rw [List.all_eq_true] at hw3
  have h := hw3 (key, b) hmem
  simp only [Bool.and_eq_true, List.all_eq_true] at h
  refine ⟨h.1, ?_⟩
  intro q hq
  have h2 := h.2 q hq
  cases hl : lookupA db.record_info q.2 with
  | none => rw [hl] at h2; simp at h2
  | some r =>
    rw [hl] at h2
    simp only [Bool.and_eq_true, beq_iff_eq] at h2
    exact ⟨r, rfl, h2.1, h2.2⟩

theorem inputFilter_some (db : RecordDatabase) (now : Nat) (p : Nat × Nat)
    (r : RecordInfo) (h : inputFilter db now p = some r) :
    lookupA db.record_info p.2 = some r ∧ r.ro.amount ≠ 0 ∧ r.on_hold now = false := by
  unfold inputFilter at h
  cases hl : lookupA db.record_info p.2 with
  | none => simp only [hl] at h; exact Option.noConfusion h
  | some record =>
    simp only [hl] at h
    by_cases hc : (record.ro.amount == 0 || record.on_hold now) = true
    · simp only [if_pos hc] at h
      exact Option.noConfusion h
    · simp only [if_neg hc] at h
      have hrv := Option.some.inj h
      subst hrv
      simp only [Bool.or_eq_true, beq_iff_eq, not_or] at hc
      exact ⟨rfl, hc.1, by simpa using hc.2⟩

theorem inputFilter_of_props (db : RecordDatabase) (now : Nat) (p : Nat × Nat)
    (r : RecordInfo) (hl : lookupA db.record_info p.2 = some r)
    (h0 : r.ro.amount ≠ 0) (hh : r.on_hold now = false) :
    inputFilter db now p = some r := by
  unfold inputFilter
  simp [hl, h0, hh]

theorem input_records_forward (db : RecordDatabase) (asset owner : Nat)
    (frozen : Bool) (now : Nat) (hwf : wfb db = true) :
    ∀ r ∈ db.input_records asset owner frozen now,
      r.ro.amount ≠ 0 ∧ r.on_hold now = false ∧
      lookupA db.record_info r.uid = some r ∧
      r.ro.asset = asset ∧ r.ro.pub_key = owner ∧ r.ro.freeze_flag = frozen := by
  intro r hr
  unfold RecordDatabase.input_records at hr
  cases hb : lookupA db.asset_records (asset, owner, frozen) with
  | none => rw [hb] at hr; simp at hr
  | some b =>
    rw [hb] at hr
    simp only [Option.getD_some] at hr
    obtain ⟨p, hp, hfp⟩ := List.mem_filterMap.mp hr
    obtain ⟨hl, h0, hh⟩ := inputFilter_some db now p r hfp
    have hpmem : p ∈ b := List.mem_reverse.mp hp
    obtain ⟨r2, hl2, hamt, hkey⟩ := (wfb_bucket_entry db hwf _ b hb).2 p hpmem
    rw [hl] at hl2
    have hr2 := Option.some.inj hl2
    subst hr2
    have huid := wfb_record_uid db hwf p.2 r hl
    refine ⟨h0, hh, ?_, ?_, ?_, ?_⟩
    · rw [huid]; exact hl
    · exact congrArg (fun k => k.1) hkey
    · exact congrArg (fun k => k.2.1) hkey
    · exact congrArg (fun k => k.2.2) hkey

theorem input_records_sorted (db : RecordDatabase) (asset owner : Nat)
    (frozen : Bool) (now : Nat) (hwf : wfb db = true) :
    List.Pairwise (fun r1 r2 => r2.ro.amount ≤ r1.ro.amount)
      (db.input_records asset owner frozen now) := by
  unfold RecordDatabase.input_records
  cases hb : lookupA db.asset_records (asset, owner, frozen) with
  | none => simp
  | some b =>
    simp only [Option.getD_some]
    have hsort := (wfb_bucket_entry db hwf _ b hb).1
    have hforall := (wfb_bucket_entry db hwf _ b hb).2
    have hpair := sortedBucket_pairwise b hsort
    have hrev : List.Pairwise (fun p q => pairLt q p) b.reverse :=
      List.pairwise_reverse.mpr hpair
    refine List.pairwise_filterMap.mpr ?_
    refine hrev.imp_of_mem ?_
    intro p q hp hq hpq
    intro r1 hr1 r2 hr2
    rw [Option.mem_def] at hr1 hr2
    obtain ⟨hl1, -, -⟩ := inputFilter_some db now p r1 hr1
    obtain ⟨hl2, -, -⟩ := inputFilter_some db now q r2 hr2
    obtain ⟨ra, hra, hamta, -⟩ := hforall p (List.mem_reverse.mp hp)
    obtain ⟨rb, hrb, hamtb, -⟩ := hforall q (List.mem_reverse.mp hq)
    rw [hl1] at hra
    rw [hl2] at hrb
    have hra2 := Option.some.inj hra
    have hrb2 := Option.some.inj hrb
    subst hra2
    subst hrb2
    rw [hamta, hamtb]
    unfold pairLt at hpq
    omega

theorem findExactIn_some (db : RecordDatabase) (now : Nat) :
    ∀ (l : List (Nat × Nat)) (r : RecordInfo), findExactIn db now l = some r →
      ∃ p ∈ l, lookupA db.record_info p.2 = some r ∧ r.on_hold now = false := by
  intro l
  induction l with
  | nil => intro r h; simp [findExactIn] at h
  | cons p rest ih =>
    intro r h
    unfold findExactIn at h
    cases hl : lookupA db.record_info p.2 with
    | none =>
      simp only [hl] at h
      obtain ⟨q, hq, hq2⟩ := ih r h
      exact ⟨q, List.mem_cons_of_mem _ hq, hq2⟩
    | some record =>
      simp only [hl] at h
      by_cases hh : record.on_hold now = true
      · simp only [if_pos hh] at h
        obtain ⟨q, hq, hq2⟩ := ih r h
        exact ⟨q, List.mem_cons_of_mem _ hq, hq2⟩
      · simp only [if_neg hh] at h
        have hre := Option.some.inj h
        subst hre
        exact ⟨p, List.mem_cons_self _ _, hl, by simpa using hh⟩

theorem findExactIn_isSome (db : RecordDatabase) (now : Nat) :
    ∀ (l : List (Nat × Nat)) (p : Nat × Nat) (r : RecordInfo), p ∈ l →
      lookupA db.record_info p.2 = some r → r.on_hold now = false →
      (findExactIn db now l).isSome = true := by
  intro l
  induction l with
  | nil => intro p r hp _ _; cases hp
  | cons q rest ih =>
    intro p r hp hl hh
    unfold findExactIn
    cases hq : lookupA db.record_info q.2 with
    | none =>
      rcases List.mem_cons.mp hp with heq | hp2
      · rw [heq] at hl
        rw [hl] at hq
        exact Option.noConfusion hq
      · exact ih p r hp2 hl hh
    | some record =>
      by_cases hrh : record.on_hold now = true
      · rcases List.mem_cons.mp hp with heq | hp2
        · exfalso
          rw [heq] at hl
          rw [hl] at hq
          have hre : r = record := Option.some.inj hq
          rw [← hre] at hrh
          rw [hh] at hrh
          exact Bool.false_ne_true hrh
        · simp only [if_pos hrh]
          exact ih p r hp2 hl hh
      · simp only [if_neg hrh]
        rfl

theorem input_record_with_amount_props (db : RecordDatabase) (hwf : wfb db = true)
    (asset owner : Nat) (frozen : Bool) (amount now : Nat) (r : RecordInfo)
    (h : db.input_record_with_amount asset owner frozen amount now = some r) :
    r.ro.amount = amount ∧ r.on_hold now = false ∧
    lookupA db.record_info r.uid = some r ∧
    r.ro.asset = asset ∧ r.ro.pub_key = owner ∧ r.ro.freeze_flag = frozen := by
  unfold RecordDatabase.input_record_with_amount at h
  cases hb : lookupA db.asset_records (asset, owner, frozen) with
  | none => rw [hb] at h; exact Option.noConfusion h
  | some b =>
    rw [hb] at h
    obtain ⟨p, hp, hl, hh⟩ := findExactIn_some db now _ r h
    have hpb : p ∈ b := (List.mem_filter.mp hp).1
    have hpa : (p.1 == amount) = true := (List.mem_filter.mp hp).2
    obtain ⟨r2, hl2, hamt, hkey⟩ := (wfb_bucket_entry db hwf _ b hb).2 p hpb
    rw [hl] at hl2
    have hre := Option.some.inj hl2
    subst hre
    have huid := wfb_record_uid db hwf p.2 r hl
    refine ⟨?_, hh, ?_, ?_, ?_, ?_⟩
    · rw [hamt]; exact beq_iff_eq.mp hpa
    · rw [huid]; exact hl
    · exact congrArg (fun k => k.1) hkey
    · exact congrArg (fun k => k.2.1) hkey
    · exact congrArg (fun k => k.2.2) hkey

theorem exact_match_iff (db : RecordDatabase) (asset owner : Nat) (frozen : Bool)
    (amount now : Nat) (hwf : wfb db = true) :
    (∃ uid r, lookupA db.record_info uid = some r ∧
      r.ro.asset = asset ∧ r.ro.pub_key = owner ∧ r.ro.freeze_flag = frozen ∧
      r.ro.amount = amount ∧ r.on_hold now = false) ↔
    (db.input_record_with_amount asset owner frozen amount now).isSome = true := by
  constructor
  · rintro ⟨uid, r, hl, ha, ho, hf, ham, hh⟩
    have hkey : r.ro.key = (asset, owner, frozen) := by
      simp [RecordOpening.key, ha, ho, hf]
    have hbmem : (r.ro.amount, uid) ∈ db.bucket r.ro.key := wfb_record_bucket db hwf uid r hl
    rw [hkey] at hbmem
    obtain ⟨b, hb⟩ : ∃ b, lookupA db.asset_records (asset, owner, frozen) = some b := by
      cases hbl : lookupA db.asset_records (asset, owner, frozen) with
      | none => rw [RecordDatabase.bucket, hbl] at hbmem; simp at hbmem
      | some b => exact ⟨b, rfl⟩
    rw [RecordDatabase.bucket, hb, Option.getD_some] at hbmem
    unfold RecordDatabase.input_record_with_amount
    rw [hb]
    refine findExactIn_isSome db now _ (r.ro.amount, uid) r ?_ hl hh
    rw [List.mem_filter]
    exact ⟨hbmem, by simp [ham]⟩
  · intro hsome
    obtain ⟨r, hr⟩ := Option.isSome_iff_exists.mp hsome
    obtain ⟨ham, hh, hl, ha, ho, hf⟩ :=
      input_record_with_amount_props db hwf asset owner frozen amount now r hr
    exact ⟨r.uid, r, hl, ha, ho, hf, ham, hh⟩

theorem take_succ_append (taken : List RecordInfo) (r : RecordInfo)
    (rest : List RecordInfo) :
    (taken ++ r :: rest).take (taken.length + 1) = taken ++ [r] := by
  have h : taken ++ r :: rest = (taken ++ [r]) ++ rest := by simp
  have h2 : taken.length + 1 = (taken ++ [r]).length := by simp
  rw [h, h2, List.take_left]

theorem sumTake_succ_append (taken : List RecordInfo) (r : RecordInfo)
    (rest : List RecordInfo) :
    sumTake (taken ++ r :: rest) (taken.length + 1) = sumAmt taken + r.ro.amount := by
  unfold sumTake
  rw [take_succ_append]
  simp [sumAmt]

theorem frLoop_char (asset amount : Nat) (max_records : Option Nat) :
    ∀ (cands taken : List RecordInfo),
      (∀ j, 1 ≤ j → j ≤ taken.length → sumTake (taken ++ cands) j < amount) →
      (∀ m, max_records = some m → taken.length ≤ m) →
      (∀ recs change,
        frLoop asset amount max_records cands (taken.map (fun r => (r.ro, r.uid)))
            (sumAmt taken) = .ok (recs, change) →
        ∃ k, taken.length + 1 ≤ k ∧ k ≤ (taken ++ cands).length ∧
          recs = ((taken ++ cands).take k).map (fun r => (r.ro, r.uid)) ∧
          amount ≤ sumTake (taken ++ cands) k ∧
          change = sumTake (taken ++ cands) k - amount ∧
          (∀ j, 1 ≤ j → j < k → sumTake (taken ++ cands) j < amount) ∧
          (∀ m, max_records = some m → k ≤ m)) ∧
      (∀ a amt sugg m,
        frLoop asset amount max_records cands (taken.map (fun r => (r.ro, r.uid)))
            (sumAmt taken) = .error (.Fragmentation a amt sugg m) →
        a = asset ∧ amt = amount ∧ max_records = some m ∧
        sugg = sumTake (taken ++ cands) m ∧ m < (taken ++ cands).length ∧
        (∀ j, 1 ≤ j → j ≤ m → sumTake (taken ++ cands) j < amount)) ∧
      (∀ a req act,
        frLoop asset amount max_records cands (taken.map (fun r => (r.ro, r.uid)))
            (sumAmt taken) = .error (.InsufficientBalance a req act) →
        a = asset ∧ req = amount ∧ act = sumAmt (taken ++ cands) ∧
        (∀ j, 1 ≤ j → j ≤ (taken ++ cands).length → sumTake (taken ++ cands) j < amount) ∧
        (∀ m, max_records = some m → (taken ++ cands).length ≤ m)) ∧
      (∀ e,
        frLoop asset amount max_records cands (taken.map (fun r => (r.ro, r.uid)))
            (sumAmt taken) = .error e →
        (∃ a amt sugg m, e = .Fragmentation a amt sugg m) ∨
        ∃ a req act, e = .InsufficientBalance a req act) := by
  intro cands
  induction cands with
  | nil =>
    intro taken H3 H4
    simp only [List.append_nil] at H3 ⊢
    have hfr : frLoop asset amount max_records []
        (taken.map (fun r => (r.ro, r.uid))) (sumAmt taken) =
        .error (.InsufficientBalance asset amount (sumAmt taken)) := by
      simp [frLoop]
    refine ⟨?_, ?_, ?_, ?_⟩
    · intro recs change h
      rw [hfr] at h
      exact Except.noConfusion h
    · intro a amt sugg m h
      rw [hfr] at h
      exact WalletError.noConfusion (Except.error.inj h)
    · intro a req act h
      rw [hfr] at h
      have h2 := Except.error.inj h
      injection h2 with e1 e2 e3
      exact ⟨e1.symm, e2.symm, e3.symm, fun j h1 h2 => H3 j h1 h2, H4⟩
    · intro e h
      rw [hfr] at h
      exact Or.inr ⟨asset, amount, sumAmt taken, (Except.error.inj h).symm⟩
  | cons r rest ih =>
    intro taken H3 H4
    have hfull : taken ++ r :: rest = (taken ++ [r]) ++ rest := by simp
    cases max_records with
    | none =>
      by_cases hok : amount ≤ sumAmt taken + r.ro.amount
      · have hfr : frLoop asset amount none (r :: rest)
            (taken.map (fun r => (r.ro, r.uid))) (sumAmt taken) =
            .ok (taken.map (fun r => (r.ro, r.uid)) ++ [(r.ro, r.uid)],
                 sumAmt taken + r.ro.amount - amount) := by
          simp [frLoop, hok]
        refine ⟨?_, ?_, ?_, ?_⟩
        · intro recs change h
          rw [hfr] at h
          have h2 := Except.ok.inj h
          injection h2 with hrecs hchange
          refine ⟨taken.length + 1, le_refl _, ?_, ?_, ?_, ?_, ?_, ?_⟩
          · simp only [List.length_append, List.length_cons]; omega
          · rw [← hrecs, take_succ_append]; simp
          · rw [sumTake_succ_append]; exact hok
          · rw [sumTake_succ_append]; exact hchange.symm
          · intro j h1 h2'
            exact H3 j h1 (by omega)
          · intro m hm; exact Option.noConfusion hm
        · intro a amt sugg m h; rw [hfr] at h; exact Except.noConfusion h
        · intro a req act h; rw [hfr] at h; exact Except.noConfusion h
        · intro e h; rw [hfr] at h; exact Except.noConfusion h
      · have hfr : frLoop asset amount none (r :: rest)
            (taken.map (fun r => (r.ro, r.uid))) (sumAmt taken) =
            frLoop asset amount none rest
              (taken.map (fun r => (r.ro, r.uid)) ++ [(r.ro, r.uid)])
              (sumAmt taken + r.ro.amount) := by
          simp [frLoop, hok]
        have H3' : ∀ j, 1 ≤ j → j ≤ (taken ++ [r]).length →
            sumTake ((taken ++ [r]) ++ rest) j < amount := by
          intro j h1 h2
          rw [← hfull]
          simp only [List.length_append, List.length_cons, List.length_nil] at h2
          rcases Nat.lt_or_ge j (taken.length + 1) with hj | hj
          · exact H3 j h1 (by omega)
          · have hje : j = taken.length + 1 := by omega
            rw [hje, sumTake_succ_append]
            omega
        have H4' : ∀ m, (none : Option Nat) = some m → (taken ++ [r]).length ≤ m := by
          intro m hm; exact Option.noConfusion hm
        have key := ih (taken ++ [r]) H3' H4'
        rw [← hfull] at key
        have hmap : (taken ++ [r]).map (fun r => (r.ro, r.uid)) =
            taken.map (fun r => (r.ro, r.uid)) ++ [(r.ro, r.uid)] := by simp
        have hsum : sumAmt (taken ++ [r]) = sumAmt taken + r.ro.amount := by
          simp [sumAmt]
        rw [hmap, hsum] at key
        have hlen2 : (taken ++ [r]).length = taken.length + 1 := by simp
        rw [hlen2] at key
        rw [hfr]
        refine ⟨?_, key.2.1, key.2.2.1, key.2.2.2⟩
        intro recs change h
        obtain ⟨k, hk1, hk2, hk3, hk4, hk5, hk6, hk7⟩ := key.1 recs change h
        exact ⟨k, by omega, hk2, hk3, hk4, hk5, hk6, hk7⟩
    | some m =>
      by_cases hfrag : m ≤ taken.length
      · have hlen : taken.length = m := le_antisymm (H4 m rfl) hfrag
        have hfr : frLoop asset amount (some m) (r :: rest)
            (taken.map (fun r => (r.ro, r.uid))) (sumAmt taken) =
            .error (.Fragmentation asset amount (sumAmt taken) m) := by
          simp [frLoop, hfrag]
        refine ⟨?_, ?_, ?_, ?_⟩
        · intro recs change h; rw [hfr] at h; exact Except.noConfusion h
        · intro a amt sugg m2 h
          rw [hfr] at h
          have h2 := Except.error.inj h
          injection h2 with e1 e2 e3 e4
          refine ⟨e1.symm, e2.symm, by rw [e4], ?_, ?_, ?_⟩
          · rw [← e3, ← e4, ← hlen]
            unfold sumTake
            rw [List.take_left]
          · rw [← e4]
            simp only [List.length_append, List.length_cons]
            omega
          · intro j h1 h2'
            rw [← e4] at h2'
            exact H3 j h1 (by omega)
        · intro a req act h
          rw [hfr] at h
          exact WalletError.noConfusion (Except.error.inj h)
        · intro e h
          rw [hfr] at h
          exact Or.inl ⟨asset, amount, sumAmt taken, m, (Except.error.inj h).symm⟩
      · by_cases hok : amount ≤ sumAmt taken + r.ro.amount
        · have hfr : frLoop asset amount (some m) (r :: rest)
              (taken.map (fun r => (r.ro, r.uid))) (sumAmt taken) =
              .ok (taken.map (fun r => (r.ro, r.uid)) ++ [(r.ro, r.uid)],
                   sumAmt taken + r.ro.amount - amount) := by
            simp [frLoop, hfrag, hok]
          refine ⟨?_, ?_, ?_, ?_⟩
          · intro recs change h
            rw [hfr] at h
            have h2 := Except.ok.inj h
            injection h2 with hrecs hchange
            refine ⟨taken.length + 1, le_refl _, ?_, ?_, ?_, ?_, ?_, ?_⟩
            · simp only [List.length_append, List.length_cons]; omega
            · rw [← hrecs, take_succ_append]; simp
            · rw [sumTake_succ_append]; exact hok
            · rw [sumTake_succ_append]; exact hchange.symm
            · intro j h1 h2'
              exact H3 j h1 (by omega)
            · intro m2 hm2
              have := Option.some.inj hm2
              omega
          · intro a amt sugg m2 h; rw [hfr] at h; exact Except.noConfusion h
          · intro a req act h; rw [hfr] at h; exact Except.noConfusion h
          · intro e h; rw [hfr] at h; exact Except.noConfusion h
        · have hfr : frLoop asset amount (some m) (r :: rest)
              (taken.map (fun r => (r.ro, r.uid))) (sumAmt taken) =
              frLoop asset amount (some m) rest
                (taken.map (fun r => (r.ro, r.uid)) ++ [(r.ro, r.uid)])
                (sumAmt taken + r.ro.amount) := by
            simp [frLoop, hfrag, hok]
          have H3' : ∀ j, 1 ≤ j → j ≤ (taken ++ [r]).length →
              sumTake ((taken ++ [r]) ++ rest) j < amount := by
            intro j h1 h2
            rw [← hfull]
            simp only [List.length_append, List.length_cons, List.length_nil] at h2
            rcases Nat.lt_or_ge j (taken.length + 1) with hj | hj
            · exact H3 j h1 (by omega)
            · have hje : j = taken.length + 1 := by omega
              rw [hje, sumTake_succ_append]
              omega
          have H4' : ∀ m2, (some m : Option Nat) = some m2 → (taken ++ [r]).length ≤ m2 := by
            intro m2 hm2
            have := Option.some.inj hm2
            simp only [List.length_append, List.length_cons, List.length_nil]
            omega
          have key := ih (taken ++ [r]) H3' H4'
          rw [← hfull] at key
          have hmap : (taken ++ [r]).map (fun r => (r.ro, r.uid)) =
              taken.map (fun r => (r.ro, r.uid)) ++ [(r.ro, r.uid)] := by simp
          have hsum : sumAmt (taken ++ [r]) = sumAmt taken + r.ro.amount := by
            simp [sumAmt]
          rw [hmap, hsum] at key
          have hlen2 : (taken ++ [r]).length = taken.length + 1 := by simp
          rw [hlen2] at key
          rw [hfr]
          refine ⟨?_, key.2.1, key.2.2.1, key.2.2.2⟩
          intro recs change h
          obtain ⟨k, hk1, hk2, hk3, hk4, hk5, hk6, hk7⟩ := key.1 recs change h
          exact ⟨k, by omega, hk2, hk3, hk4, hk5, hk6, hk7⟩

/-- C1: characterization of `find_records`. The candidate list
(`input_records`) consists exactly of the non-held, non-zero-amount records
of the requested triple in descending amount order; if a non-held record with
amount exactly `amount` exists the call returns just that record with
change 0; otherwise the result is fully characterized by `FRchar`: success
returns the shortest descending prefix whose total reaches `amount` with
`change = total - amount`, `Fragmentation{amount, suggested_amount = total
accumulated so far, max_records}` is returned when a further record would be
needed with `max_records` already selected, and
`InsufficientBalance{required = amount, actual = total}` when the candidates
are exhausted first. -/
theorem c1_find_records_spec :
    ∀ (db : RecordDatabase) (now asset owner : Nat) (frozen : Bool)
      (amount : Nat) (max_records : Option Nat), wfb db = true →
      (List.Pairwise (fun r1 r2 => r2.ro.amount ≤ r1.ro.amount)
          (db.input_records asset owner frozen now) ∧
        ∀ r ∈ db.input_records asset owner frozen now,
          r.ro.amount ≠ 0 ∧ r.on_hold now = false ∧
          lookupA db.record_info r.uid = some r ∧
          r.ro.asset = asset ∧ r.ro.pub_key = owner ∧ r.ro.freeze_flag = frozen) ∧
      ((∃ uid r, lookupA db.record_info uid = some r ∧ r.ro.asset = asset ∧
          r.ro.pub_key = owner ∧ r.ro.freeze_flag = frozen ∧
          r.ro.amount = amount ∧ r.on_hold now = false) ↔
        (db.input_record_with_amount asset owner frozen amount now).isSome = true) ∧
      (∀ r, db.input_record_with_amount asset owner frozen amount now = some r →
        find_records db now asset owner frozen amount max_records =
          .ok ([(r.ro, r.uid)], 0) ∧
        r.ro.amount = amount ∧ r.on_hold now = false ∧
        lookupA db.record_info r.uid = some r) ∧
      (db.input_record_with_amount asset owner frozen amount now = none →
        FRchar asset (db.input_records asset owner frozen now) amount max_records
          (find_records db now asset owner frozen amount max_records)) := by
  intro db now asset owner frozen amount max_records hwf
  refine ⟨⟨input_records_sorted db asset owner frozen now hwf,
           input_records_forward db asset owner frozen now hwf⟩,
          exact_match_iff db asset owner frozen amount now hwf, ?_, ?_⟩
  · intro r hr
    obtain ⟨ham, hh, hl, ha, ho, hf⟩ :=
      input_record_with_amount_props db hwf asset owner frozen amount now r hr
    refine ⟨?_, ham, hh, hl⟩
    unfold find_records
    simp only [hr]
  · intro hexact
    have hred : find_records db now asset owner frozen amount max_records =
        frLoop asset amount max_records (db.input_records asset owner frozen now) [] 0 := by
      unfold find_records
      simp only [hexact]
    rw [hred]
    have key := frLoop_char asset amount max_records
      (db.input_records asset owner frozen now) []
      (by intro j h1 h2
          simp only [List.length_nil] at h2
          exact absurd (h1.trans h2) (by omega))
      (fun m _ => Nat.zero_le m)
    simp only [List.nil_append, List.map_nil, List.length_nil, Nat.zero_add] at key
    have h0 : sumAmt ([] : List RecordInfo) = 0 := rfl
    rw [h0] at key
    unfold FRchar
    exact key

/-- C1 witness: in the concrete database `dbW` the exact-amount record of
amount 3 (uid 2) is returned alone with change 0. -/
theorem c1_witness :
    find_records dbW 0 0 7 false 3 none = .ok ([(⟨3, 0, 7, false⟩, 2)], 0) :=
  ((c1_find_records_spec dbW 0 0 7 false 3 none (by decide)).2.2.1
    ⟨⟨3, 0, 7, false⟩, 2, none⟩ (by decide)).1

theorem input_records_exists (db : RecordDatabase) (hwf : wfb db = true)
    (asset owner : Nat) (frozen : Bool) (now uid : Nat) (r : RecordInfo)
    (hl : lookupA db.record_info uid = some r) (ha : r.ro.asset = asset)
    (ho : r.ro.pub_key = owner) (hf : r.ro.freeze_flag = frozen)
    (h0 : r.ro.amount ≠ 0) (hh : r.on_hold now = false) :
    r ∈ db.input_records asset owner frozen now := by
  have hkey : r.ro.key = (asset, owner, frozen) := by
    simp [RecordOpening.key, ha, ho, hf]
  have hbmem : (r.ro.amount, uid) ∈ db.bucket r.ro.key := wfb_record_bucket db hwf uid r hl
  rw [hkey] at hbmem
  obtain ⟨b, hb⟩ : ∃ b, lookupA db.asset_records (asset, owner, frozen) = some b := by
    cases hbl : lookupA db.asset_records (asset, owner, frozen) with
    | none => rw [RecordDatabase.bucket, hbl] at hbmem; simp at hbmem
    | some b => exact ⟨b, rfl⟩
  rw [RecordDatabase.bucket, hb, Option.getD_some] at hbmem
  unfold RecordDatabase.input_records
  rw [hb, Option.getD_some]
  refine List.mem_filterMap.mpr ⟨(r.ro.amount, uid), List.mem_reverse.mpr hbmem, ?_⟩
  exact inputFilter_of_props db now _ r hl h0 hh

/-- C9 (amended): every successful `find_records` call returns a non-empty
record list; a call with `amount = 0` fails with
`InsufficientBalance{required = 0, actual = 0}` iff the triple has no
non-held record at all — in particular, a non-held zero-amount dummy is
found by the exact-amount path for `amount = 0`, making the call succeed. -/
theorem c9_find_records_nonempty :
    ∀ (db : RecordDatabase) (now asset owner : Nat) (frozen : Bool)
      (amount : Nat) (max_records : Option Nat), wfb db = true →
      (∀ recs change,
        find_records db now asset owner frozen amount max_records = .ok (recs, change) →
        recs ≠ []) ∧
      (amount = 0 →
        (find_records db now asset owner frozen 0 max_records =
            .error (.InsufficientBalance asset 0 0) ↔
          ¬ ∃ uid r, lookupA db.record_info uid = some r ∧ r.ro.asset = asset ∧
            r.ro.pub_key = owner ∧ r.ro.freeze_flag = frozen ∧
            r.on_hold now = false)) := by
  intro db now asset owner frozen amount max_records hwf
  have spec := c1_find_records_spec db now asset owner frozen amount max_records hwf
  constructor
  · intro recs change h
    cases hex : db.input_record_with_amount asset owner frozen amount now with
    | some r =>
      have := (spec.2.2.1 r hex).1
      rw [this] at h
      have h2 := Except.ok.inj h
      injection h2 with hrecs _
      rw [← hrecs]
      simp
    | none =>
      have hchar := spec.2.2.2 hex
      obtain ⟨k, hk1, hk2, hk3, -, -, -, -⟩ := hchar.1 recs change h
      intro hnil
      rw [hnil] at hk3
      have hlen := congrArg List.length hk3
      simp only [List.length_nil, List.length_map, List.length_take] at hlen
      omega
  · intro ham
    subst ham
    constructor
    · intro herr hex
      obtain ⟨uid, r, hl, ha, ho, hf, hh⟩ := hex
      by_cases h0 : r.ro.amount = 0
      · have hsome := (spec.2.1).mp ⟨uid, r, hl, ha, ho, hf, h0, hh⟩
        obtain ⟨r2, hr2⟩ := Option.isSome_iff_exists.mp hsome
        rw [(spec.2.2.1 r2 hr2).1] at herr
        exact Except.noConfusion herr
      · have hmem := input_records_exists db hwf asset owner frozen now uid r hl ha ho hf h0 hh
        cases hex : db.input_record_with_amount asset owner frozen 0 now with
        | some r2 =>
          rw [(spec.2.2.1 r2 hex).1] at herr
          exact Except.noConfusion herr
        | none =>
          have hchar := spec.2.2.2 hex
          have hIB := hchar.2.2.1 asset 0 0 herr
          have hlen : 1 ≤ (db.input_records asset owner frozen now).length :=
            List.length_pos.mpr (List.ne_nil_of_mem hmem)
          have := hIB.2.2.2.1 1 (le_refl 1) hlen
          omega
    · intro hnone
      have hex : db.input_record_with_amount asset owner frozen 0 now = none := by
        cases hex : db.input_record_with_amount asset owner frozen 0 now with
        | none => rfl
        | some r =>
          obtain ⟨-, hh, hl, ha, ho, hf⟩ :=
            input_record_with_amount_props db hwf asset owner frozen 0 now r hex
          exact absurd ⟨r.uid, r, hl, ha, ho, hf, hh⟩ hnone
      have hcands : db.input_records asset owner frozen now = [] := by
        cases hc : db.input_records asset owner frozen now with
        | nil => rfl
        | cons r rest =>
          obtain ⟨-, hh, hl, ha, ho, hf⟩ :=
            input_records_forward db asset owner frozen now hwf r (by rw [hc]; simp)
          exact absurd ⟨r.uid, r, hl, ha, ho, hf, hh⟩ hnone
      unfold find_records
      simp only [hex, hcands]
      simp [frLoop]

/-- C9 counterexample: `db9` holds only a zero-amount record — there is no
non-held, non-zero-amount record of the triple (asset 0, owner 7, unfrozen) —
yet `find_records` with `amount = 0` succeeds, returning the dummy via the
exact-amount path, instead of failing with `InsufficientBalance`. -/
theorem c9_counterexample :
    (db9.record_info.all (fun p => p.2.ro.amount == 0)) = true ∧
    find_records db9 0 0 7 false 0 none = .ok ([(⟨0, 0, 7, false⟩, 1)], 0) :=
  ⟨by decide, rfl⟩

/-- C9 witness: over `db9` (which does contain a non-held dummy) the
`amount = 0` call does not return `InsufficientBalance`. -/
theorem c9_witness :
    find_records db9 0 0 7 false 0 none ≠ .error (.InsufficientBalance 0 0 0) := by
  intro herr
  have h := ((c9_find_records_nonempty db9 0 0 7 false 0 none (by decide)).2 rfl).mp herr
  exact h ⟨1, ⟨⟨0, 0, 7, false⟩, 1, none⟩, by decide, rfl, rfl, rfl, rfl⟩

/-! ### C3 and C8: `add_pending_transaction` and `submit_elaborated_transaction` -/

theorem holdAll_nul_asset : ∀ (ns : List Nat) (db : RecordDatabase) (now t : Nat)
    (db2 : RecordDatabase), holdAll db ns now t = some db2 →
    db2.nullifier_records = db.nullifier_records ∧
    db2.asset_records = db.asset_records := by
  intro ns
  induction ns with
  | nil =>
    intro db now t db2 h
    unfold holdAll at h
    have := Option.some.inj h
    rw [← this]
    exact ⟨rfl, rfl⟩
  | cons n rest ih =>
    intro db now t db2 h
    unfold holdAll at h
    cases h1 : lookupA db.nullifier_records n with
    | none =>
      simp only [h1] at h
      exact Option.noConfusion h
    | some uid =>
      simp only [h1] at h
      cases h2 : lookupA db.record_info uid with
      | none =>
        simp only [h2] at h
        exact Option.noConfusion h
      | some r =>
        simp only [h2] at h
        by_cases hh : r.on_hold now = true
        · simp only [if_pos hh] at h
          exact Option.noConfusion h
        · simp only [if_neg hh] at h
          have hstep := ih _ now t db2 h
          exact hstep

theorem holdAll_untouched : ∀ (ns : List Nat) (db : RecordDatabase) (now t : Nat)
    (db2 : RecordDatabase), holdAll db ns now t = some db2 →
    ∀ u, (∀ n ∈ ns, lookupA db.nullifier_records n ≠ some u) →
      lookupA db2.record_info u = lookupA db.record_info u := by
  intro ns
  induction ns with
  | nil =>
    intro db now t db2 h u _
    unfold holdAll at h
    rw [← Option.some.inj h]
  | cons n rest ih =>
    intro db now t db2 h u hu
    unfold holdAll at h
    cases h1 : lookupA db.nullifier_records n with
    | none =>
      simp only [h1] at h
      exact Option.noConfusion h
    | some uid =>
      simp only [h1] at h
      cases h2 : lookupA db.record_info uid with
      | none =>
        simp only [h2] at h
        exact Option.noConfusion h
      | some r =>
        simp only [h2] at h
        by_cases hh : r.on_hold now = true
        · simp only [if_pos hh] at h
          exact Option.noConfusion h
        · simp only [if_neg hh] at h
          have hne : uid ≠ u := by
            intro he
            exact hu n (List.mem_cons_self _ _) (by rw [← he]; exact h1)
          have hstep := ih _ now t db2 h u
            (fun n2 hn2 => hu n2 (List.mem_cons_of_mem _ hn2))
          rw [hstep, lookupA_insertA, if_neg (fun he => hne he.symm)]

theorem holdAll_pre : ∀ (ns : List Nat) (db : RecordDatabase) (now t : Nat)
    (db2 : RecordDatabase), holdAll db ns now t = some db2 →
    ∀ n ∈ ns, ∃ uid r, lookupA db.nullifier_records n = some uid ∧
      lookupA db.record_info uid = some r ∧ r.on_hold now = false := by
  intro ns
  induction ns with
  | nil => intro db now t db2 h n hn; cases hn
  | cons n rest ih =>
    intro db now t db2 h n2 hn2
    unfold holdAll at h
    cases h1 : lookupA db.nullifier_records n with
    | none =>
      simp only [h1] at h
      exact Option.noConfusion h
    | some uid =>
      simp only [h1] at h
      cases h2 : lookupA db.record_info uid with
      | none =>
        simp only [h2] at h
        exact Option.noConfusion h
      | some r =>
        simp only [h2] at h
        by_cases hh : r.on_hold now = true
        · simp only [if_pos hh] at h
          exact Option.noConfusion h
        · simp only [if_neg hh] at h
          rcases List.mem_cons.mp hn2 with heq | hn3
          · rw [heq]
            exact ⟨uid, r, h1, h2, by simpa using hh⟩
          · obtain ⟨uid2, r2, hnul2, hrec2, hh2⟩ := ih _ now t db2 h n2 hn3
            by_cases hu : uid2 = uid
            · exact ⟨uid, r, by rw [← hu]; exact hnul2, h2, by simpa using hh⟩
            · refine ⟨uid2, r2, hnul2, ?_, hh2⟩
              rw [lookupA_insertA] at hrec2
              rw [if_neg hu] at hrec2
              exact hrec2

theorem holdAll_mono : ∀ (ns : List Nat) (db : RecordDatabase) (now t : Nat)
    (db2 : RecordDatabase), holdAll db ns now t = some db2 →
    ∀ u r, lookupA db.record_info u = some r → r.hold_until = some t →
      ∃ r2, lookupA db2.record_info u = some r2 ∧ r2.hold_until = some t := by
  intro ns
  induction ns with
  | nil =>
    intro db now t db2 h u r hu hr
    unfold holdAll at h
    rw [← Option.some.inj h]
    exact ⟨r, hu, hr⟩
  | cons n rest ih =>
    intro db now t db2 h u r hu hr
    unfold holdAll at h
    cases h1 : lookupA db.nullifier_records n with
    | none =>
      simp only [h1] at h
      exact Option.noConfusion h
    | some uid =>
      simp only [h1] at h
      cases h2 : lookupA db.record_info uid with
      | none =>
        simp only [h2] at h
        exact Option.noConfusion h
      | some r0 =>
        simp only [h2] at h
        by_cases hh : r0.on_hold now = true
        · simp only [if_pos hh] at h
          exact Option.noConfusion h
        · simp only [if_neg hh] at h
          by_cases hu2 : u = uid
          · refine ih _ now t db2 h u { r0 with hold_until := some t } ?_ rfl
            rw [lookupA_insertA, if_pos hu2]
          · refine ih _ now t db2 h u r ?_ hr
            rw [lookupA_insertA, if_neg hu2]
            exact hu

theorem holdAll_post : ∀ (ns : List Nat) (db : RecordDatabase) (now t : Nat)
    (db2 : RecordDatabase), holdAll db ns now t = some db2 →
    ∀ n ∈ ns, ∃ uid r, lookupA db2.nullifier_records n = some uid ∧
      lookupA db2.record_info uid = some r ∧ r.hold_until = some t := by
  intro ns
  induction ns with
  | nil => intro db now t db2 h n hn; cases hn
  | cons n rest ih =>
    intro db now t db2 h n2 hn2
    have hnul := (holdAll_nul_asset _ db now t db2 h).1
    unfold holdAll at h
    cases h1 : lookupA db.nullifier_records n with
    | none =>
      simp only [h1] at h
      exact Option.noConfusion h
    | some uid =>
      simp only [h1] at h
      cases h2 : lookupA db.record_info uid with
      | none =>
        simp only [h2] at h
        exact Option.noConfusion h
      | some r =>
        simp only [h2] at h
        by_cases hh : r.on_hold now = true
        · simp only [if_pos hh] at h
          exact Option.noConfusion h
        · simp only [if_neg hh] at h
          rcases List.mem_cons.mp hn2 with heq | hn3
          · obtain ⟨r2, hr2, hold2⟩ :=
              holdAll_mono _ _ now t db2 h uid { r with hold_until := some t }
                (by rw [lookupA_insertA, if_pos rfl]) rfl
            refine ⟨uid, r2, ?_, hr2, hold2⟩
            rw [heq, hnul]
            exact h1
          · exact ih _ now t db2 h n2 hn3

theorem add_pending_post (recordRootHistorySize : Nat) (s : WalletState)
    (nulls : List Nat) (memos sig : Nat) (fo : List RecordOpening)
    (s2 : WalletState)
    (h : add_pending_transaction recordRootHistorySize s nulls memos sig fo = some s2) :
    (∀ n ∈ nulls, ∃ uid r, lookupA s.records.nullifier_records n = some uid ∧
      lookupA s.records.record_info uid = some r ∧
      r.on_hold s.prev_commit_time = false) ∧
    (∀ n ∈ nulls, ∃ uid r, lookupA s2.records.nullifier_records n = some uid ∧
      lookupA s2.records.record_info uid = some r ∧
      r.hold_until = some (s.prev_commit_time + RECORD_HOLD_TIME recordRootHistorySize)) ∧
    (∃ n0 rest, nulls = n0 :: rest ∧
      lookupA s2.pending_txns n0 =
        some ⟨memos, sig, fo, s.prev_commit_time + RECORD_HOLD_TIME recordRootHistorySize⟩ ∧
      n0 ∈ bucketGet s2.expiring_txns
        (s.prev_commit_time + RECORD_HOLD_TIME recordRootHistorySize) ∧
      lookupA s2.ghost_inflight n0 = some nulls) ∧
    s2.now = s.now ∧ s2.prev_commit_time = s.prev_commit_time := by
  unfold add_pending_transaction at h
  cases hha : holdAll s.records nulls s.prev_commit_time
      (s.prev_commit_time + RECORD_HOLD_TIME recordRootHistorySize) with
  | none =>
    simp only [hha] at h
    exact Option.noConfusion h
  | some db =>
    simp only [hha] at h
    cases nulls with
    | nil => exact Option.noConfusion h
    | cons n0 restN =>
      have hs2 := Option.some.inj h
      rw [← hs2]
      refine ⟨holdAll_pre _ _ _ _ _ hha, holdAll_post _ _ _ _ _ hha, ?_, rfl, rfl⟩
      refine ⟨n0, restN, rfl, ?_, ?_, ?_⟩
      · simp [lookupA_insertA]
      · rw [bucketGet_bucketInsert, if_pos rfl, mem_insertSet]
        exact Or.inl rfl
      · simp [lookupA_insertA]

/-- C3: `add_pending_transaction` computes
`timeout = validator time + RECORD_HOLD_TIME`, where `RECORD_HOLD_TIME`
equals `ValidatorState::RECORD_ROOT_HISTORY_SIZE`; for every input nullifier
(the fee input included) it requires the record to exist locally and not be
on hold, and sets that record's hold to `timeout`; and it inserts the
pending entry keyed by the first (fee) nullifier into the pending map and
into the expiring index under `timeout`. -/
theorem c3_add_pending_transaction :
    ∀ (recordRootHistorySize : Nat) (s : WalletState) (nulls : List Nat)
      (memos sig : Nat) (fo : List RecordOpening) (s2 : WalletState),
      add_pending_transaction recordRootHistorySize s nulls memos sig fo = some s2 →
      RECORD_HOLD_TIME recordRootHistorySize = recordRootHistorySize ∧
      (∀ n ∈ nulls, ∃ uid r, lookupA s.records.nullifier_records n = some uid ∧
        lookupA s.records.record_info uid = some r ∧
        r.on_hold s.prev_commit_time = false) ∧
      (∀ n ∈ nulls, ∃ uid r, lookupA s2.records.nullifier_records n = some uid ∧
        lookupA s2.records.record_info uid = some r ∧
        r.hold_until = some (s.prev_commit_time + RECORD_HOLD_TIME recordRootHistorySize)) ∧
      (∃ n0 rest, nulls = n0 :: rest ∧
        lookupA s2.pending_txns n0 =
          some ⟨memos, sig, fo,
            s.prev_commit_time + RECORD_HOLD_TIME recordRootHistorySize⟩ ∧
        n0 ∈ bucketGet s2.expiring_txns
          (s.prev_commit_time + RECORD_HOLD_TIME recordRootHistorySize)) := by
  intro rrhs s nulls memos sig fo s2 h
  obtain ⟨hpre, hpost, ⟨n0, restN, hn, hp, hb, -⟩, -, -⟩ :=
    add_pending_post rrhs s nulls memos sig fo s2 h
  exact ⟨rfl, hpre, hpost, n0, restN, hn, hp, hb⟩

/-- C3 witness: submitting over `sW` the transaction with input nullifier
100 places a hold until `0 + RECORD_HOLD_TIME 2` on record uid 1. -/
theorem c3_witness :
    ∃ uid r, lookupA sW1.records.nullifier_records 100 = some uid ∧
      lookupA sW1.records.record_info uid = some r ∧
      r.hold_until = some (sW.prev_commit_time + RECORD_HOLD_TIME 2) :=
  (c3_add_pending_transaction 2 sW [100] 0 0 [] sW1 rfl).2.2.1 100
    (List.mem_singleton.mpr rfl)

/-- C8: when the backend's `submit` fails inside
`submit_elaborated_transaction`, nothing is rolled back: the error is
returned to the caller while every input record keeps its hold until the
computed timeout and the transaction stays in the pending map and in the
expiring index. -/
theorem c8_submit_error_no_rollback :
    ∀ (recordRootHistorySize : Nat) (e : WalletError) (s : WalletState)
      (nulls : List Nat) (memos sig : Nat) (fo : List RecordOpening)
      (s2 : WalletState) (out : SubmitOutcome),
      submit_elaborated_transaction recordRootHistorySize (some e) s nulls
        memos sig fo = some (s2, out) →
      out = .submitted (some e) ∧
      add_pending_transaction recordRootHistorySize s nulls memos sig fo = some s2 ∧
      (∀ n ∈ nulls, ∃ uid r, lookupA s2.records.nullifier_records n = some uid ∧
        lookupA s2.records.record_info uid = some r ∧
        r.hold_until =
          some (s.prev_commit_time + RECORD_HOLD_TIME recordRootHistorySize)) ∧
      (∃ n0 rest, nulls = n0 :: rest ∧
        lookupA s2.pending_txns n0 =
          some ⟨memos, sig, fo,
            s.prev_commit_time + RECORD_HOLD_TIME recordRootHistorySize⟩ ∧
        n0 ∈ bucketGet s2.expiring_txns
          (s.prev_commit_time + RECORD_HOLD_TIME recordRootHistorySize)) := by
  intro rrhs e s nulls memos sig fo s2 out h
  unfold submit_elaborated_transaction at h
  cases ha : add_pending_transaction rrhs s nulls memos sig fo with
  | none =>
    simp only [ha] at h
    exact Option.noConfusion h
  | some s3 =>
    simp only [ha] at h
    have h2 := Option.some.inj h
    injection h2 with hs hout
    subst hs
    obtain ⟨-, hpost, ⟨n0, restN, hn, hp, hb, -⟩, -, -⟩ :=
      add_pending_post rrhs s nulls memos sig fo _ ha
    exact ⟨hout.symm, rfl, hpost, n0, restN, hn, hp, hb⟩

/-- C8 witness: a failing backend submit still leaves the holds and the
pending entry of the concrete submission in place (the state is `sW1`). -/
theorem c8_witness :
    add_pending_transaction 2 sW [100] 0 0 [] = some sW1 :=
  (c8_submit_error_no_rollback 2 (.CryptoError 0) sW [100] 0 0 [] sW1
    (.submitted (some (.CryptoError 0))) rfl).2.1

/-! ### C4: local construction errors leave the state untouched -/

theorem transferNative_localError (recordRootHistorySize : Nat)
    (unul : RecordOpening → Nat → Nat)
    (best_fit : Nat → Nat → Except (Nat × Nat) (Nat × Nat))
    (gen_err sign_err : Option Nat) (backend_result : Option WalletError)
    (s : WalletState) (me : Nat) (receivers : List (Nat × Nat)) (fee : Nat)
    (s2 : WalletState) (e : WalletError)
    (h : transfer_native recordRootHistorySize unul best_fit gen_err sign_err
      backend_result s me receivers fee = some (s2, .localError e)) : s2 = s := by
  simp only [transfer_native, submit_elaborated_transaction] at h
  repeat' split at h
  all_goals
    first
    | exact Option.noConfusion h
    | exact (congrArg Prod.fst (Option.some.inj h)).symm
    | exact SubmitOutcome.noConfusion (congrArg Prod.snd (Option.some.inj h))

theorem transferNonNative_localError (recordRootHistorySize : Nat)
    (unul : RecordOpening → Nat → Nat)
    (best_fit : Nat → Nat → Except (Nat × Nat) (Nat × Nat))
    (gen_err : Option Nat) (sign_ok : Bool) (backend_result : Option WalletError)
    (s : WalletState) (me asset : Nat) (receivers : List (Nat × Nat)) (fee : Nat)
    (s2 : WalletState) (e : WalletError)
    (h : transfer_non_native recordRootHistorySize unul best_fit gen_err sign_ok
      backend_result s me asset receivers fee = some (s2, .localError e)) : s2 = s := by
  simp only [transfer_non_native, submit_elaborated_transaction] at h
  repeat' split at h
  all_goals
    first
    | exact Option.noConfusion h
    | exact (congrArg Prod.fst (Option.some.inj h)).symm
    | exact SubmitOutcome.noConfusion (congrArg Prod.snd (Option.some.inj h))

theorem mint_localError (recordRootHistorySize : Nat)
    (unul : RecordOpening → Nat → Nat) (get_public_key : Nat → Option Nat)
    (gen_err : Option Nat) (sign_ok : Bool) (backend_result : Option WalletError)
    (s : WalletState) (me fee asset_code amount owner_addr : Nat)
    (s2 : WalletState) (e : WalletError)
    (h : mint recordRootHistorySize unul get_public_key gen_err sign_ok
      backend_result s me fee asset_code amount owner_addr =
      some (s2, .localError e)) : s2 = s := by
  simp only [mint, submit_elaborated_transaction] at h
  repeat' split at h
  all_goals
    first
    | exact Option.noConfusion h
    | exact (congrArg Prod.fst (Option.some.inj h)).symm
    | exact SubmitOutcome.noConfusion (congrArg Prod.snd (Option.some.inj h))

theorem freeze_localError (recordRootHistorySize : Nat)
    (fnul unul : RecordOpening → Nat → Nat)
    (best_fit : Nat → Nat → Except (Nat × Nat) (Nat × Nat))
    (get_public_key : Nat → Option Nat) (gen_err : Option Nat) (sign_ok : Bool)
    (backend_result : Option WalletError) (s : WalletState)
    (me my_freezer_key fee asset_code asset_freezer_key amount owner_addr : Nat)
    (outputs_frozen : Bool) (s2 : WalletState) (e : WalletError)
    (h : freeze_or_unfreeze recordRootHistorySize fnul unul best_fit
      get_public_key gen_err sign_ok backend_result s me my_freezer_key fee
      asset_code asset_freezer_key amount owner_addr outputs_frozen =
      some (s2, .localError e)) : s2 = s := by
  simp only [freeze_or_unfreeze, submit_elaborated_transaction] at h
  repeat' split at h
  all_goals
    first
    | exact Option.noConfusion h
    | exact (congrArg Prod.fst (Option.some.inj h)).symm
    | exact SubmitOutcome.noConfusion (congrArg Prod.snd (Option.some.inj h))

/-- C4: every user operation (transfer — native or not —, mint, freeze,
unfreeze) that returns a local construction error (InsufficientBalance,
Fragmentation, TooManyOutputs, UndefinedAsset, InvalidFreezerKey,
InvalidAddress, CryptoError) before submission reaches the backend returns
that error with no state mutation: the state paired with the error is
exactly the input state, so no record is put on hold and no pending entry
is created. -/
theorem c4_local_error_no_state_mutation :
    ∀ (recordRootHistorySize : Nat) (fnul unul : RecordOpening → Nat → Nat)
      (best_fit : Nat → Nat → Except (Nat × Nat) (Nat × Nat))
      (get_public_key : Nat → Option Nat) (gen_err sign_err : Option Nat)
      (sign_ok : Bool) (backend_result : Option WalletError)
      (s s2 : WalletState) (e : WalletError),
      (∀ me asset receivers fee,
        transfer recordRootHistorySize unul best_fit get_public_key gen_err
          sign_err sign_ok backend_result s me asset receivers fee =
          some (s2, .localError e) → s2 = s) ∧
      (∀ me receivers fee,
        transfer_native recordRootHistorySize unul best_fit gen_err sign_err
          backend_result s me receivers fee = some (s2, .localError e) → s2 = s) ∧
      (∀ me asset receivers fee,
        transfer_non_native recordRootHistorySize unul best_fit gen_err sign_ok
          backend_result s me asset receivers fee = some (s2, .localError e) →
          s2 = s) ∧
      (∀ me fee asset_code amount owner_addr,
        mint recordRootHistorySize unul get_public_key gen_err sign_ok
          backend_result s me fee asset_code amount owner_addr =
          some (s2, .localError e) → s2 = s) ∧
      (∀ me my_freezer_key fee asset_code asset_freezer_key amount owner_addr
          outputs_frozen,
        freeze_or_unfreeze recordRootHistorySize fnul unul best_fit
          get_public_key gen_err sign_ok backend_result s me my_freezer_key fee
          asset_code asset_freezer_key amount owner_addr outputs_frozen =
          some (s2, .localError e) → s2 = s) := by
  intro rrhs fnul unul best_fit gpk gen_err sign_err sign_ok backend_result s s2 e
  refine ⟨?_, ?_, ?_, ?_, ?_⟩
  · intro me asset receivers fee h
    unfold transfer at h
    cases hres : resolveReceivers gpk receivers with
    | error e2 =>
      simp only [hres] at h
      exact (congrArg Prod.fst (Option.some.inj h)).symm
    | ok rs =>
      simp only [hres] at h
      by_cases hasset : asset = NATIVE_ASSET
      · rw [if_pos hasset] at h
        exact transferNative_localError rrhs unul best_fit gen_err sign_err
          backend_result s me rs fee s2 e h
      · rw [if_neg hasset] at h
        exact transferNonNative_localError rrhs unul best_fit gen_err sign_ok
          backend_result s me asset rs fee s2 e h
  · intro me receivers fee h
    exact transferNative_localError rrhs unul best_fit gen_err sign_err
      backend_result s me receivers fee s2 e h
  · intro me asset receivers fee h
    exact transferNonNative_localError rrhs unul best_fit gen_err sign_ok
      backend_result s me asset receivers fee s2 e h
  · intro me fee asset_code amount owner_addr h
    exact mint_localError rrhs unul gpk gen_err sign_ok backend_result s me fee
      asset_code amount owner_addr s2 e h
  · intro me my_freezer_key fee asset_code asset_freezer_key amount owner_addr
      outputs_frozen h
    exact freeze_localError rrhs fnul unul best_fit gpk gen_err sign_ok
      backend_result s me my_freezer_key fee asset_code asset_freezer_key amount
      owner_addr outputs_frozen s2 e h

/-- C4 witness: a non-native transfer over `sW` of an undefined asset 1 hits
`InsufficientBalance` during input selection and returns the state
unchanged. -/
theorem c4_witness : sW = sW :=
  (c4_local_error_no_state_mutation 2 nulW nulW (fun i o => .ok (i, o))
    (fun a => some a) none none true none sW sW
    (.InsufficientBalance 1 4 0)).2.2.1 7 1 [(9, 4)] 1 rfl

/-! ### C5: reject handling — clearing pending entries and resubmission -/

theorem unholdOrCheck_fields : ∀ (ns : List Nat) (ours isErr : Bool) (now : Nat)
    (db db2 : RecordDatabase), unholdOrCheck ours isErr now db ns = some db2 →
    db2.nullifier_records = db.nullifier_records ∧
    db2.asset_records = db.asset_records := by
  intro ns
  induction ns with
  | nil =>
    intro ours isErr now db db2 h
    unfold unholdOrCheck at h
    rw [← Option.some.inj h]
    exact ⟨rfl, rfl⟩
  | cons n rest ih =>
    intro ours isErr now db db2 h
    unfold unholdOrCheck at h
    cases h1 : lookupA db.nullifier_records n with
    | none =>
      simp only [h1] at h
      exact ih ours isErr now db db2 h
    | some uid =>
      simp only [h1] at h
      cases h2 : lookupA db.record_info uid with
      | none =>
        simp only [h2] at h
        exact ih ours isErr now db db2 h
      | some r =>
        simp only [h2] at h
        cases ours with
        | false =>
          simp only [Bool.false_eq_true, if_false] at h
          by_cases hh : r.on_hold now = true
          · simp only [if_pos hh] at h
            exact Option.noConfusion h
          · simp only [if_neg hh] at h
            exact ih false isErr now db db2 h
        | true =>
          simp only [if_true] at h
          by_cases hh : r.on_hold now = true
          · simp only [if_pos hh] at h
            cases isErr with
            | false =>
              simp only [Bool.false_eq_true, if_false] at h
              exact ih true false now db db2 h
            | true =>
              simp only [if_true] at h
              have hstep := ih true true now _ db2 h
              exact hstep
          · simp only [if_neg hh] at h
            exact Option.noConfusion h

theorem unholdOrCheck_notOurs : ∀ (ns : List Nat) (isErr : Bool) (now : Nat)
    (db db2 : RecordDatabase), unholdOrCheck false isErr now db ns = some db2 →
    db2 = db := by
  intro ns
  induction ns with
  | nil =>
    intro isErr now db db2 h
    unfold unholdOrCheck at h
    exact (Option.some.inj h).symm
  | cons n rest ih =>
    intro isErr now db db2 h
    unfold unholdOrCheck at h
    cases h1 : lookupA db.nullifier_records n with
    | none =>
      simp only [h1] at h
      exact ih isErr now db db2 h
    | some uid =>
      simp only [h1] at h
      cases h2 : lookupA db.record_info uid with
      | none =>
        simp only [h2] at h
        exact ih isErr now db db2 h
      | some r =>
        simp only [h2, Bool.false_eq_true, if_false] at h
        by_cases hh : r.on_hold now = true
        · simp only [if_pos hh] at h
          exact Option.noConfusion h
        · simp only [if_neg hh] at h
          exact ih isErr now db db2 h

theorem unholdOrCheck_oursOk : ∀ (ns : List Nat) (now : Nat)
    (db db2 : RecordDatabase), unholdOrCheck true false now db ns = some db2 →
    db2 = db := by
  intro ns
  induction ns with
  | nil =>
    intro now db db2 h
    unfold unholdOrCheck at h
    exact (Option.some.inj h).symm
  | cons n rest ih =>
    intro now db db2 h
    unfold unholdOrCheck at h
    cases h1 : lookupA db.nullifier_records n with
    | none =>
      simp only [h1] at h
      exact ih now db db2 h
    | some uid =>
      simp only [h1] at h
      cases h2 : lookupA db.record_info uid with
      | none =>
        simp only [h2] at h
        exact ih now db db2 h
      | some r =>
        simp only [h2, if_true] at h
        by_cases hh : r.on_hold now = true
        · simp only [if_pos hh, Bool.false_eq_true, if_false] at h
          exact ih now db db2 h
        · simp only [if_neg hh] at h
          exact Option.noConfusion h

theorem unholdOrCheck_unhold_mono : ∀ (ns : List Nat) (now : Nat)
    (db db2 : RecordDatabase), unholdOrCheck true true now db ns = some db2 →
    ∀ u r, lookupA db.record_info u = some r → r.hold_until = none →
      ∃ r2, lookupA db2.record_info u = some r2 ∧ r2.hold_until = none := by
  intro ns
  induction ns with
  | nil =>
    intro now db db2 h u r hu hr
    unfold unholdOrCheck at h
    rw [← Option.some.inj h]
    exact ⟨r, hu, hr⟩
  | cons n rest ih =>
    intro now db db2 h u r hu hr
    unfold unholdOrCheck at h
    cases h1 : lookupA db.nullifier_records n with
    | none =>
      simp only [h1] at h
      exact ih now db db2 h u r hu hr
    | some uid =>
      simp only [h1] at h
      cases h2 : lookupA db.record_info uid with
      | none =>
        simp only [h2] at h
        exact ih now db db2 h u r hu hr
      | some r0 =>
        simp only [h2, if_true] at h
        by_cases hh : r0.on_hold now = true
        · simp only [if_pos hh, if_true] at h
          by_cases hu2 : u = uid
          · refine ih now _ db2 h u r0.unhold ?_ rfl
            rw [lookupA_insertA, if_pos hu2]
          · refine ih now _ db2 h u r ?_ hr
            rw [lookupA_insertA, if_neg hu2]
            exact hu
        · simp only [if_neg hh] at h
          exact Option.noConfusion h

theorem unholdOrCheck_none_mono : ∀ (ns : List Nat) (now : Nat)
    (db db2 : RecordDatabase), unholdOrCheck true true now db ns = some db2 →
    ∀ u, lookupA db.record_info u = none → lookupA db2.record_info u = none := by
  intro ns
  induction ns with
  | nil =>
    intro now db db2 h u hu
    unfold unholdOrCheck at h
    rw [← Option.some.inj h]
    exact hu
  | cons n rest ih =>
    intro now db db2 h u hu
    unfold unholdOrCheck at h
    cases h1 : lookupA db.nullifier_records n with
    | none =>
      simp only [h1] at h
      exact ih now db db2 h u hu
    | some uid =>
      simp only [h1] at h
      cases h2 : lookupA db.record_info uid with
      | none =>
        simp only [h2] at h
        exact ih now db db2 h u hu
      | some r0 =>
        simp only [h2, if_true] at h
        by_cases hh : r0.on_hold now = true
        · simp only [if_pos hh, if_true] at h
          have hne : u ≠ uid := by
            intro he
            rw [he, h2] at hu
            exact Option.noConfusion hu
          refine ih now _ db2 h u ?_
          rw [lookupA_insertA, if_neg hne]
          exact hu
        · simp only [if_neg hh] at h
          exact Option.noConfusion h

theorem unholdOrCheck_releases : ∀ (ns : List Nat) (now : Nat)
    (db db2 : RecordDatabase), unholdOrCheck true true now db ns = some db2 →
    ∀ n ∈ ns, ∀ u r, lookupA db.nullifier_records n = some u →
      lookupA db2.record_info u = some r → r.hold_until = none := by
  intro ns
  induction ns with
  | nil => intro now db db2 h n hn; cases hn
  | cons n rest ih =>
    intro now db db2 h n2 hn2
    unfold unholdOrCheck at h
    cases h1 : lookupA db.nullifier_records n with
    | none =>
      simp only [h1] at h
      rcases List.mem_cons.mp hn2 with heq | hn3
      · intro u r hu hr
        rw [heq, h1] at hu
        exact Option.noConfusion hu
      · exact ih now db db2 h n2 hn3
    | some uid =>
      simp only [h1] at h
      cases h2 : lookupA db.record_info uid with
      | none =>
        simp only [h2] at h
        rcases List.mem_cons.mp hn2 with heq | hn3
        · intro u r hu hr
          rw [heq, h1] at hu
          have huid := Option.some.inj hu
          rw [huid] at h2
          have hnone := unholdOrCheck_none_mono rest now db db2 h u h2
          rw [hnone] at hr
          exact Option.noConfusion hr
        · exact ih now db db2 h n2 hn3
      | some r0 =>
        simp only [h2, if_true] at h
        by_cases hh : r0.on_hold now = true
        · simp only [if_pos hh, if_true] at h
          rcases List.mem_cons.mp hn2 with heq | hn3
          · intro u r hu hr
            rw [heq, h1] at hu
            have huid := Option.some.inj hu
            obtain ⟨r2, hr2, hold2⟩ :=
              unholdOrCheck_unhold_mono rest now _ db2 h uid r0.unhold
                (by rw [lookupA_insertA, if_pos rfl]) rfl
            rw [← huid] at hr
            rw [hr2] at hr
            rw [← Option.some.inj hr]
            exact hold2
          · exact ih now _ db2 h n2 hn3
        · simp only [if_neg hh] at h
          exact Option.noConfusion h

theorem clear_pending_err_some (fnul : RecordOpening → Nat → Nat)
    (s : WalletState) (txn : ModelTxn) (n0 : Nat) (restN : List Nat)
    (p : PendingTransaction) (hn : txn.nullifiers = n0 :: restN)
    (hp : lookupA s.pending_txns n0 = some p)
    (res : Option (Option PendingTransaction × WalletState))
    (h : clear_pending_transaction fnul s txn none = res) :
    res = none ∨
    ∃ db, unholdOrCheck true true s.prev_commit_time s.records txn.nullifiers =
        some db ∧
      res = some (some p,
        { s with
          records := db,
          pending_txns := eraseA s.pending_txns n0,
          expiring_txns := bucketErase s.expiring_txns p.timeout n0,
          ghost_inflight := eraseA s.ghost_inflight n0 }) := by
  simp only [clear_pending_transaction, hn, hp, Option.isSome_some,
    Option.isNone_none] at h
  cases hdb : unholdOrCheck true true s.prev_commit_time s.records (n0 :: restN) with
  | none =>
    simp only [hdb] at h
    exact Or.inl h.symm
  | some db =>
    simp only [hdb] at h
    refine Or.inr ⟨db, by rw [hn]; exact hdb, h.symm⟩

/-- C5: on a `Reject(block, err)` event, a transaction matching one of this
wallet's pending entries has its entry removed and the holds on its input
records released; if `err = BadNullifierProof` the wallet refreshes the
nullifier non-membership proofs and resubmits exactly once through
`submit_elaborated_transaction` (re-creating the pending entry with a fresh
timeout), and drops the transaction when the proof refresh fails; in every
case at most one resubmission is emitted. -/
theorem c5_reject_clears_and_resubmits :
    ∀ (fnul : RecordOpening → Nat → Nat) (recordRootHistorySize : Nat)
      (s : WalletState) (txn : ModelTxn) (err : MValidationError)
      (s2 : WalletState) (subs : List ModelTxn) (n0 : Nat) (restN : List Nat)
      (p : PendingTransaction),
      txn.nullifiers = n0 :: restN →
      lookupA s.pending_txns n0 = some p →
      process_reject_txn fnul recordRootHistorySize s txn err = some (s2, subs) →
      subs.length ≤ 1 ∧
      (err ≠ .BadNullifierProof →
        subs = [] ∧ lookupA s2.pending_txns n0 = none ∧ HoldsReleased s2 txn) ∧
      (update_nullifier_proofs_ok s txn = false →
        subs = [] ∧ lookupA s2.pending_txns n0 = none ∧ HoldsReleased s2 txn) ∧
      (err = .BadNullifierProof → update_nullifier_proofs_ok s txn = true →
        subs = [txn] ∧
        lookupA s2.pending_txns n0 =
          some ⟨p.receiver_memos, p.signature, p.freeze_outputs,
            s.prev_commit_time + RECORD_HOLD_TIME recordRootHistorySize⟩) := by
  intro fnul rrhs s txn err s2 subs n0 restN p hn hp h
  unfold process_reject_txn at h
  rcases clear_pending_err_some fnul s txn n0 restN p hn hp _ rfl with hclear | ⟨db, hdb, hclear⟩
  · rw [hclear] at h
    exact Option.noConfusion h
  · simp only [hclear] at h
    have hrel : HoldsReleased
        { s with
          records := db,
          pending_txns := eraseA s.pending_txns n0,
          expiring_txns := bucketErase s.expiring_txns p.timeout n0,
          ghost_inflight := eraseA s.ghost_inflight n0 } txn := by
      intro n hnmem u r hu hr
      rw [hn] at hnmem
      have hnul := (unholdOrCheck_fields txn.nullifiers true true s.prev_commit_time
        s.records db hdb).1
      rw [hn] at hdb
      refine unholdOrCheck_releases (n0 :: restN) s.prev_commit_time s.records db
        hdb n hnmem u r ?_ hr
      rw [← hnul]
      exact hu
    have hpendgone : lookupA (eraseA s.pending_txns n0) n0 = none := by
      rw [lookupA_eraseA, if_pos rfl]
    have hupd_eq : update_nullifier_proofs_ok
        { s with
          records := db,
          pending_txns := eraseA s.pending_txns n0,
          expiring_txns := bucketErase s.expiring_txns p.timeout n0,
          ghost_inflight := eraseA s.ghost_inflight n0 } txn =
        update_nullifier_proofs_ok s txn := rfl
    cases err with
    | Other c =>
      rw [if_neg (by simp)] at h
      obtain ⟨hs2, hsubs⟩ := Prod.mk.inj (Option.some.inj h)
      rw [← hs2, ← hsubs]
      refine ⟨by simp, fun _ => ⟨rfl, hpendgone, hrel⟩,
        fun _ => ⟨rfl, hpendgone, hrel⟩, fun habs _ => absurd habs (by simp)⟩
    | BadNullifierProof =>
      rw [if_pos rfl] at h
      cases hupd : update_nullifier_proofs_ok
          { s with
            records := db,
            pending_txns := eraseA s.pending_txns n0,
            expiring_txns := bucketErase s.expiring_txns p.timeout n0,
            ghost_inflight := eraseA s.ghost_inflight n0 } txn with
      | false =>
        rw [hupd] at h
        simp only [Bool.false_eq_true, if_false] at h
        obtain ⟨hs2, hsubs⟩ := Prod.mk.inj (Option.some.inj h)
        rw [← hs2, ← hsubs]
        refine ⟨by simp, fun _ => ⟨rfl, hpendgone, hrel⟩,
          fun _ => ⟨rfl, hpendgone, hrel⟩, fun _ htrue => ?_⟩
        rw [← hupd_eq, hupd] at htrue
        exact Bool.noConfusion htrue
      | true =>
        rw [hupd] at h
        simp only [if_true] at h
        cases hadd : add_pending_transaction rrhs
            { s with
              records := db,
              pending_txns := eraseA s.pending_txns n0,
              expiring_txns := bucketErase s.expiring_txns p.timeout n0,
              ghost_inflight := eraseA s.ghost_inflight n0 } txn.nullifiers
            p.receiver_memos p.signature p.freeze_outputs with
        | none =>
          rw [hadd] at h
          exact Option.noConfusion h
        | some s3 =>
          rw [hadd] at h
          obtain ⟨hs2, hsubs⟩ := Prod.mk.inj (Option.some.inj h)
          rw [← hs2, ← hsubs]
          obtain ⟨-, -, ⟨n0b, restb, hnb, hpb, -, -⟩, -, -⟩ :=
            add_pending_post rrhs _ txn.nullifiers p.receiver_memos p.signature
              p.freeze_outputs s3 hadd
          rw [hn] at hnb
          have hn0b : n0 = n0b := (List.cons.inj hnb).1
          refine ⟨by simp, fun habs => absurd rfl habs, fun hfalse => ?_, fun _ _ => ⟨rfl, ?_⟩⟩
          · rw [← hupd_eq, hupd] at hfalse
            exact Bool.noConfusion hfalse
          · rw [hn0b]
            exact hpb

/-- Witness for C5 at a concrete state: rejecting the pending transaction of
`sW1` with `BadNullifierProof` resubmits it exactly once and re-creates the
pending entry with timeout `prev_commit_time + RECORD_HOLD_TIME`. -/
theorem c5_witness :
    [(⟨[100], 0⟩ : ModelTxn)] = [⟨[100], 0⟩] ∧
    lookupA sW1.pending_txns 100 =
      some ⟨0, 0, [], sW1.prev_commit_time + RECORD_HOLD_TIME 2⟩ :=
  (c5_reject_clears_and_resubmits nulW 2 sW1 ⟨[100], 0⟩ .BadNullifierProof sW1
    [⟨[100], 0⟩] 100 [] ⟨0, 0, [], 2⟩ rfl rfl rfl).2.2.2 rfl rfl

/-! ### C2: the pending-transaction hold invariant -/

theorem mem_bucketGet (e : List (Nat × List Nat)) (t n : Nat)
    (h : n ∈ bucketGet e t) : ∃ b, lookupA e t = some b ∧ n ∈ b := by
  unfold bucketGet at h
  cases hb : lookupA e t with
  | none => rw [hb] at h; cases h
  | some b => rw [hb] at h; exact ⟨b, rfl, h⟩

theorem bucketGet_bucketErase (e : List (Nat × List Nat)) (t n t2 : Nat) :
    bucketGet (bucketErase e t n) t2 =
      if t2 = t then eraseL (bucketGet e t) n else bucketGet e t2 := by
  by_cases h : t2 = t
  · subst h
    cases hb : lookupA e t2 with
    | none => simp [bucketGet, bucketErase, hb, eraseL]
    | some b => simp [bucketGet, bucketErase, hb, lookupA_insertA]
  · cases hb : lookupA e t with
    | none => simp [bucketGet, bucketErase, hb, h]
    | some b => simp [bucketGet, bucketErase, hb, lookupA_insertA, h]

theorem unholdOrCheck_untouched : ∀ (ns : List Nat) (now : Nat)
    (db db2 : RecordDatabase), unholdOrCheck true true now db ns = some db2 →
    ∀ u, (∀ n ∈ ns, lookupA db.nullifier_records n ≠ some u) →
      lookupA db2.record_info u = lookupA db.record_info u := by
  intro ns
  induction ns with
  | nil =>
    intro now db db2 h u _
    unfold unholdOrCheck at h
    rw [← Option.some.inj h]
  | cons n rest ih =>
    intro now db db2 h u hne
    have hrest : ∀ n2 ∈ rest, lookupA db.nullifier_records n2 ≠ some u :=
      fun n2 hn2 => hne n2 (List.mem_cons_of_mem n hn2)
    unfold unholdOrCheck at h
    cases h1 : lookupA db.nullifier_records n with
    | none =>
      simp only [h1] at h
      exact ih now db db2 h u hrest
    | some uid =>
      simp only [h1] at h
      have huid : uid ≠ u := by
        intro heq
        exact hne n (List.mem_cons_self n rest) (heq ▸ h1)
      cases h2 : lookupA db.record_info uid with
      | none =>
        simp only [h2] at h
        exact ih now db db2 h u hrest
      | some r =>
        simp only [h2, if_true] at h
        by_cases hh : r.on_hold now = true
        · simp only [if_pos hh, if_true] at h
          have hstep := ih now _ db2 h u hrest
          rw [hstep]
          show lookupA (insertA db.record_info uid r.unhold) u = _
          rw [lookupA_insertA, if_neg (fun hx => huid hx.symm)]
        · simp only [if_neg hh] at h
          exact Option.noConfusion h

theorem expireAll_char : ∀ (ns : List Nat) (now : Nat) (s0 s1 : WalletState),
    expireAll now s0 ns = some s1 →
    s1.records = s0.records ∧ s1.expiring_txns = s0.expiring_txns ∧
    s1.now = s0.now ∧ s1.prev_commit_time = s0.prev_commit_time ∧
    ∀ fn, (lookupA s1.pending_txns fn =
        if fn ∈ ns then none else lookupA s0.pending_txns fn) ∧
      (lookupA s1.ghost_inflight fn =
        if fn ∈ ns then none else lookupA s0.ghost_inflight fn) := by
  intro ns
  induction ns with
  | nil =>
    intro now s0 s1 h
    unfold expireAll at h
    rw [← Option.some.inj h]
    exact ⟨rfl, rfl, rfl, rfl, fun fn => by simp⟩
  | cons n rest ih =>
    intro now s0 s1 h
    unfold expireAll at h
    cases h1 : s0.records.record_with_nullifier n with
    | none =>
      simp only [h1] at h
      exact Option.noConfusion h
    | some pr =>
      obtain ⟨u, r⟩ := pr
      simp only [h1] at h
      by_cases hh : r.hold_until = some now
      · rw [if_pos hh] at h
        obtain ⟨hr, he, hn, hp, hfn⟩ := ih now _ s1 h
        refine ⟨hr, he, hn, hp, fun fn => ?_⟩
        obtain ⟨hf1, hf2⟩ := hfn fn
        rw [hf1, hf2]
        by_cases hfe : fn = n
        · subst hfe
          constructor
          · show (if fn ∈ rest then none else lookupA (eraseA s0.pending_txns fn) fn) = _
            rw [lookupA_eraseA]
            simp [List.mem_cons]
          · show (if fn ∈ rest then none else lookupA (eraseA s0.ghost_inflight fn) fn) = _
            rw [lookupA_eraseA]
            simp [List.mem_cons]
        · by_cases hfr : fn ∈ rest
          · simp [List.mem_cons, hfr, hfe]
          · constructor
            · show (if fn ∈ rest then none else lookupA (eraseA s0.pending_txns n) fn) = _
              rw [if_neg hfr, lookupA_eraseA, if_neg hfe]
              simp [List.mem_cons, hfe, hfr]
            · show (if fn ∈ rest then none else lookupA (eraseA s0.ghost_inflight n) fn) = _
              rw [if_neg hfr, lookupA_eraseA, if_neg hfe]
              simp [List.mem_cons, hfe, hfr]
      · rw [if_neg hh] at h
        exact Option.noConfusion h

theorem clear_pending_err_char (fnul : RecordOpening → Nat → Nat)
    (s : WalletState) (txn : ModelTxn) (pend : Option PendingTransaction)
    (s1 : WalletState)
    (h : clear_pending_transaction fnul s txn none = some (pend, s1)) :
    ∃ n0 restN db, txn.nullifiers = n0 :: restN ∧
      pend = lookupA s.pending_txns n0 ∧
      unholdOrCheck pend.isSome true s.prev_commit_time s.records
        (n0 :: restN) = some db ∧
      s1 = { s with
        records := db,
        pending_txns := eraseA s.pending_txns n0,
        expiring_txns := match pend with
          | some p => bucketErase s.expiring_txns p.timeout n0
          | none => s.expiring_txns,
        ghost_inflight := eraseA s.ghost_inflight n0 } := by
  cases hn : txn.nullifiers with
  | nil =>
    simp only [clear_pending_transaction, hn] at h
    exact Option.noConfusion h
  | cons n0 restN =>
    cases hp : lookupA s.pending_txns n0 with
    | none =>
      simp only [clear_pending_transaction, hn, hp, Option.isSome_none,
        Option.isNone_none] at h
      cases hdb : unholdOrCheck false true s.prev_commit_time s.records
          (n0 :: restN) with
      | none =>
        simp only [hdb] at h
        exact Option.noConfusion h
      | some db =>
        simp only [hdb] at h
        obtain ⟨hpe, hs1⟩ := Prod.mk.inj (Option.some.inj h)
        subst hpe
        exact ⟨n0, restN, db, rfl, hp.symm, hdb, hs1.symm⟩
    | some p =>
      simp only [clear_pending_transaction, hn, hp, Option.isSome_some,
        Option.isNone_none] at h
      cases hdb : unholdOrCheck true true s.prev_commit_time s.records
          (n0 :: restN) with
      | none =>
        simp only [hdb] at h
        exact Option.noConfusion h
      | some db =>
        simp only [hdb] at h
        obtain ⟨hpe, hs1⟩ := Prod.mk.inj (Option.some.inj h)
        subst hpe
        exact ⟨n0, restN, db, rfl, hp.symm, hdb, hs1.symm⟩

theorem clear_pending_ok_char (fnul : RecordOpening → Nat → Nat)
    (s : WalletState) (txn : ModelTxn) (uids : List Nat)
    (pend : Option PendingTransaction) (s1 : WalletState)
    (h : clear_pending_transaction fnul s txn (some uids) = some (pend, s1)) :
    ∃ n0 restN, txn.nullifiers = n0 :: restN ∧
      pend = lookupA s.pending_txns n0 ∧
      s1 = { s with
        records := match pend with
          | some p => insertFreezables fnul s.records
              ((uids.drop 1).zip p.freeze_outputs)
          | none => s.records,
        pending_txns := eraseA s.pending_txns n0,
        expiring_txns := match pend with
          | some p => bucketErase s.expiring_txns p.timeout n0
          | none => s.expiring_txns,
        ghost_inflight := eraseA s.ghost_inflight n0 } := by
  cases hn : txn.nullifiers with
  | nil =>
    simp only [clear_pending_transaction, hn] at h
    exact Option.noConfusion h
  | cons n0 restN =>
    cases hp : lookupA s.pending_txns n0 with
    | none =>
      simp only [clear_pending_transaction, hn, hp, Option.isSome_none,
        Option.isNone_some] at h
      cases hdb : unholdOrCheck false false s.prev_commit_time s.records
          (n0 :: restN) with
      | none =>
        simp only [hdb] at h
        exact Option.noConfusion h
      | some db =>
        have hdbe : db = s.records := unholdOrCheck_notOurs _ _ _ _ _ hdb
        simp only [hdb] at h
        obtain ⟨hpe, hs1⟩ := Prod.mk.inj (Option.some.inj h)
        subst hpe
        refine ⟨n0, restN, rfl, hp.symm, ?_⟩
        subst hdbe
        exact hs1.symm
    | some p =>
      simp only [clear_pending_transaction, hn, hp, Option.isSome_some,
        Option.isNone_some] at h
      cases hdb : unholdOrCheck true false s.prev_commit_time s.records
          (n0 :: restN) with
      | none =>
        simp only [hdb] at h
        exact Option.noConfusion h
      | some db =>
        have hdbe : db = s.records := unholdOrCheck_oursOk _ _ _ _ hdb
        simp only [hdb] at h
        obtain ⟨hpe, hs1⟩ := Prod.mk.inj (Option.some.inj h)
        subst hpe
        refine ⟨n0, restN, rfl, hp.symm, ?_⟩
        subst hdbe
        exact hs1.symm

theorem insertFreezables_pres (f : RecordOpening → Nat → Nat) :
    ∀ (pairs : List (Nat × RecordOpening)) (db : RecordDatabase) (u n : Nat),
    (∀ p ∈ pairs, p.1 ≠ u ∧ f p.2 p.1 ≠ n) →
    lookupA (insertFreezables f db pairs).record_info u =
      lookupA db.record_info u ∧
    lookupA (insertFreezables f db pairs).nullifier_records n =
      lookupA db.nullifier_records n := by
  intro pairs
  induction pairs with
  | nil =>
    intro db u n _
    exact ⟨rfl, rfl⟩
  | cons p rest ih =>
    intro db u n hne
    obtain ⟨uid, ro⟩ := p
    obtain ⟨hu, hn2⟩ := hne (uid, ro) (List.mem_cons_self _ _)
    have hrest : ∀ q ∈ rest, q.1 ≠ u ∧ f q.2 q.1 ≠ n :=
      fun q hq => hne q (List.mem_cons_of_mem _ hq)
    obtain ⟨ha, hb⟩ := ih (db.insert_with_nullifier ro uid (f ro uid)) u n hrest
    constructor
    · show lookupA (insertFreezables f
          (db.insert_with_nullifier ro uid (f ro uid)) rest).record_info u = _
      rw [ha]
      show lookupA (insertA db.record_info uid ⟨ro, uid, none⟩) u = _
      rw [lookupA_insertA, if_neg (fun hx => hu hx.symm)]
    · show lookupA (insertFreezables f
          (db.insert_with_nullifier ro uid (f ro uid)) rest).nullifier_records n = _
      rw [hb]
      show lookupA (insertA db.nullifier_records (f ro uid) uid) n = _
      rw [lookupA_insertA, if_neg (fun hx => hn2 hx.symm)]

theorem insertFreezables_growth (f : RecordOpening → Nat → Nat) :
    ∀ (pairs : List (Nat × RecordOpening)) (db : RecordDatabase) (n u : Nat),
    lookupA (insertFreezables f db pairs).nullifier_records n = some u →
    lookupA db.nullifier_records n = some u ∨ ∃ p ∈ pairs, p.1 = u := by
  intro pairs
  induction pairs with
  | nil =>
    intro db n u h
    exact Or.inl h
  | cons p rest ih =>
    intro db n u h
    obtain ⟨uid, ro⟩ := p
    rcases ih (db.insert_with_nullifier ro uid (f ro uid)) n u h with h2 | ⟨q, hq, hqe⟩
    · have h3 : lookupA (insertA db.nullifier_records (f ro uid) uid) n = some u := h2
      rw [lookupA_insertA] at h3
      by_cases hk : n = f ro uid
      · rw [if_pos hk] at h3
        exact Or.inr ⟨(uid, ro), List.mem_cons_self _ _, Option.some.inj h3⟩
      · rw [if_neg hk] at h3
        exact Or.inl h3
    · exact Or.inr ⟨q, List.mem_cons_of_mem _ hq, hqe⟩

theorem remove_by_nullifier_submap (db : RecordDatabase) (n : Nat) :
    (∀ u r, lookupA (db.remove_by_nullifier n).2.record_info u = some r →
      lookupA db.record_info u = some r) ∧
    (∀ n2 u, lookupA (db.remove_by_nullifier n).2.nullifier_records n2 = some u →
      lookupA db.nullifier_records n2 = some u) := by
  cases h1 : lookupA db.nullifier_records n with
  | none =>
    simp only [RecordDatabase.remove_by_nullifier, h1]
    exact ⟨fun u r h => h, fun n2 u h => h⟩
  | some uid =>
    cases h2 : lookupA db.record_info uid with
    | none =>
      simp only [RecordDatabase.remove_by_nullifier, h1, h2]
      refine ⟨fun u r h => h, fun n2 u h => ?_⟩
      rw [lookupA_eraseA] at h
      by_cases hk : n2 = n
      · rw [if_pos hk] at h
        exact Option.noConfusion h
      · rw [if_neg hk] at h
        exact h
    | some record =>
      simp only [RecordDatabase.remove_by_nullifier, h1, h2]
      constructor
      · intro u r h
        rw [lookupA_eraseA] at h
        by_cases hk : u = uid
        · rw [if_pos hk] at h
          exact Option.noConfusion h
        · rw [if_neg hk] at h
          exact h
      · intro n2 u h
        rw [lookupA_eraseA] at h
        by_cases hk : n2 = n
        · rw [if_pos hk] at h
          exact Option.noConfusion h
        · rw [if_neg hk] at h
          exact h

theorem remove_by_nullifier_pres (db : RecordDatabase) (n u2 n2 : Nat)
    (r : RecordInfo)
    (hu : lookupA db.record_info u2 = some r)
    (hn2u : lookupA db.nullifier_records n2 = some u2)
    (hne : ∀ u, lookupA db.nullifier_records n = some u → u ≠ u2) :
    lookupA (db.remove_by_nullifier n).2.record_info u2 = some r ∧
    lookupA (db.remove_by_nullifier n).2.nullifier_records n2 = some u2 := by
  have hn2n : n2 ≠ n := by
    intro he
    exact hne u2 (he ▸ hn2u) rfl
  cases h1 : lookupA db.nullifier_records n with
  | none =>
    simp only [RecordDatabase.remove_by_nullifier, h1]
    exact ⟨hu, hn2u⟩
  | some uid =>
    have huid : uid ≠ u2 := hne uid h1
    cases h2 : lookupA db.record_info uid with
    | none =>
      simp only [RecordDatabase.remove_by_nullifier, h1, h2]
      refine ⟨hu, ?_⟩
      rw [lookupA_eraseA, if_neg hn2n]
      exact hn2u
    | some record =>
      simp only [RecordDatabase.remove_by_nullifier, h1, h2]
      constructor
      · rw [lookupA_eraseA, if_neg (fun hx => huid hx.symm)]
        exact hu
      · rw [lookupA_eraseA, if_neg hn2n]
        exact hn2u

theorem spend_foldl_fields : ∀ (ns : List Nat) (st : WalletState),
    (ns.foldl (fun st n =>
      { st with
        nullifier_set := insertSet n st.nullifier_set,
        records := (st.records.remove_by_nullifier n).2 }) st).pending_txns =
      st.pending_txns ∧
    (ns.foldl (fun st n =>
      { st with
        nullifier_set := insertSet n st.nullifier_set,
        records := (st.records.remove_by_nullifier n).2 }) st).expiring_txns =
      st.expiring_txns ∧
    (ns.foldl (fun st n =>
      { st with
        nullifier_set := insertSet n st.nullifier_set,
        records := (st.records.remove_by_nullifier n).2 }) st).ghost_inflight =
      st.ghost_inflight ∧
    (ns.foldl (fun st n =>
      { st with
        nullifier_set := insertSet n st.nullifier_set,
        records := (st.records.remove_by_nullifier n).2 }) st).now = st.now ∧
    (ns.foldl (fun st n =>
      { st with
        nullifier_set := insertSet n st.nullifier_set,
        records := (st.records.remove_by_nullifier n).2 }) st).prev_commit_time =
      st.prev_commit_time := by
  intro ns
  induction ns with
  | nil =>
    intro st
    exact ⟨rfl, rfl, rfl, rfl, rfl⟩
  | cons n rest ih =>
    intro st
    exact ih _

theorem spend_foldl_pres : ∀ (ns : List Nat) (st : WalletState) (u2 n2 : Nat)
    (r : RecordInfo),
    lookupA st.records.record_info u2 = some r →
    lookupA st.records.nullifier_records n2 = some u2 →
    (∀ n ∈ ns, ∀ u, lookupA st.records.nullifier_records n = some u → u ≠ u2) →
    lookupA (ns.foldl (fun st n =>
      { st with
        nullifier_set := insertSet n st.nullifier_set,
        records := (st.records.remove_by_nullifier n).2 }) st).records.record_info
      u2 = some r ∧
    lookupA (ns.foldl (fun st n =>
      { st with
        nullifier_set := insertSet n st.nullifier_set,
        records := (st.records.remove_by_nullifier n).2 }) st).records.nullifier_records
      n2 = some u2 := by
  intro ns
  induction ns with
  | nil =>
    intro st u2 n2 r h1 h2 _
    exact ⟨h1, h2⟩
  | cons n rest ih =>
    intro st u2 n2 r h1 h2 hne
    obtain ⟨h1b, h2b⟩ := remove_by_nullifier_pres st.records n u2 n2 r h1 h2
      (fun u hu => hne n (List.mem_cons_self _ _) u hu)
    obtain ⟨hsub1, hsub2⟩ := remove_by_nullifier_submap st.records n
    exact ih _ u2 n2 r h1b h2b (fun n3 hn3 u hu =>
      hne n3 (List.mem_cons_of_mem _ hn3) u (hsub2 n3 u hu))

theorem head?_mem (l : List Nat) (x : Nat) (hl : l.head? = some x) : x ∈ l := by
  cases l with
  | nil => exact Option.noConfusion hl
  | cons a t =>
    rw [List.head?_cons] at hl
    rw [← Option.some.inj hl]
    exact List.mem_cons_self _ _

theorem txinv_add_pending (rrhs : Nat) (h1 : 1 ≤ rrhs) (s s' : WalletState)
    (nulls : List Nat) (memos sig : Nat) (fo : List RecordOpening)
    (hinv : TxInv s)
    (h : add_pending_transaction rrhs s nulls memos sig fo = some s') :
    TxInv s' := by
  have hfut : ∀ fn pt, lookupA s.pending_txns fn = some pt →
      s.prev_commit_time < pt.timeout := by
    intro fn pt hfn
    obtain ⟨b, hb, -⟩ := mem_bucketGet _ _ _ (hinv.inBucket fn pt hfn)
    exact hinv.bucketFut _ _ hb
  simp only [add_pending_transaction] at h
  cases nulls with
  | nil =>
    cases hha : holdAll s.records [] s.prev_commit_time
        (s.prev_commit_time + RECORD_HOLD_TIME rrhs) with
    | none =>
      simp only [hha] at h
      exact Option.noConfusion h
    | some db =>
      simp only [hha] at h
      exact Option.noConfusion h
  | cons n0 rest =>
    cases hha : holdAll s.records (n0 :: rest) s.prev_commit_time
        (s.prev_commit_time + RECORD_HOLD_TIME rrhs) with
    | none =>
      simp only [hha] at h
      exact Option.noConfusion h
    | some db =>
      simp only [hha] at h
      have hpre := holdAll_pre _ _ _ _ _ hha
      have hpost := holdAll_post _ _ _ _ _ hha
      have hnulr := (holdAll_nul_asset _ _ _ _ _ hha).1
      have hsep : ∀ fn pt, lookupA s.pending_txns fn = some pt →
          ∀ u2 r2, lookupA s.records.record_info u2 = some r2 →
          r2.hold_until = some pt.timeout →
          ∀ n' ∈ n0 :: rest, lookupA s.records.nullifier_records n' ≠ some u2 := by
        intro fn pt hfn u2 r2 hu2 hh2 n' hn' heq
        obtain ⟨uidX, rX, hX1, hX2, hX3⟩ := hpre n' hn'
        rw [heq] at hX1
        obtain rfl := Option.some.inj hX1
        rw [hu2] at hX2
        obtain rfl := Option.some.inj hX2
        simp only [RecordInfo.on_hold, hh2] at hX3
        simp only [decide_eq_false_iff_not] at hX3
        exact hX3 (hfut fn pt hfn)
      have hn0pend : lookupA s.pending_txns n0 = none := by
        cases hp0 : lookupA s.pending_txns n0 with
        | none => rfl
        | some pt0 =>
          exfalso
          obtain ⟨ns0, hg0, hh0, hrec0⟩ := hinv.holds n0 pt0 hp0
          obtain ⟨uid0, r0, hu0, hr0, hhold0⟩ := hrec0 n0 (head?_mem ns0 n0 hh0)
          exact hsep n0 pt0 hp0 uid0 r0 hr0 hhold0 n0 (List.mem_cons_self _ _) hu0
      obtain rfl := Option.some.inj h
      constructor
      · -- holds
        intro fn pt hfn
        replace hfn : lookupA (insertA s.pending_txns n0
            ⟨memos, sig, fo, s.prev_commit_time + RECORD_HOLD_TIME rrhs⟩) fn =
            some pt := hfn
        rw [lookupA_insertA] at hfn
        by_cases hfe : fn = n0
        · rw [if_pos hfe] at hfn
          obtain rfl := Option.some.inj hfn
          subst hfe
          refine ⟨fn :: rest, ?_, rfl, ?_⟩
          · show lookupA (insertA s.ghost_inflight fn (fn :: rest)) fn = _
            rw [lookupA_insertA, if_pos rfl]
          · intro n hn
            obtain ⟨uid, r, ha, hb, hc⟩ := hpost n hn
            exact ⟨uid, r, ha, hb, hc⟩
        · rw [if_neg hfe] at hfn
          obtain ⟨ns, hg, hh, hrec⟩ := hinv.holds fn pt hfn
          refine ⟨ns, ?_, hh, ?_⟩
          · show lookupA (insertA s.ghost_inflight n0 (n0 :: rest)) fn = _
            rw [lookupA_insertA, if_neg hfe]
            exact hg
          · intro n hn
            obtain ⟨uid, r, ha, hb, hc⟩ := hrec n hn
            refine ⟨uid, r, ?_, ?_, hc⟩
            · show lookupA db.nullifier_records n = some uid
              rw [hnulr]
              exact ha
            · show lookupA db.record_info uid = some r
              have huntouched := holdAll_untouched _ _ _ _ _ hha uid
                (fun n' hn' heq => hsep fn pt hfn uid r hb hc n' hn' heq)
              rw [huntouched]
              exact hb
      · -- inBucket
        intro fn pt hfn
        replace hfn : lookupA (insertA s.pending_txns n0
            ⟨memos, sig, fo, s.prev_commit_time + RECORD_HOLD_TIME rrhs⟩) fn =
            some pt := hfn
        rw [lookupA_insertA] at hfn
        show fn ∈ bucketGet (bucketInsert s.expiring_txns
          (s.prev_commit_time + RECORD_HOLD_TIME rrhs) n0) pt.timeout
        rw [bucketGet_bucketInsert]
        by_cases hfe : fn = n0
        · rw [if_pos hfe] at hfn
          obtain rfl := Option.some.inj hfn
          subst hfe
          rw [if_pos rfl, mem_insertSet]
          exact Or.inl rfl
        · rw [if_neg hfe] at hfn
          have hmem := hinv.inBucket fn pt hfn
          by_cases hte : pt.timeout = s.prev_commit_time + RECORD_HOLD_TIME rrhs
          · rw [if_pos hte, mem_insertSet]
            right
            rw [← hte]
            exact hmem
          · rw [if_neg hte]
            exact hmem
      · -- bucketPend
        intro t b hb
        replace hb : lookupA (bucketInsert s.expiring_txns
            (s.prev_commit_time + RECORD_HOLD_TIME rrhs) n0) t = some b := hb
        rw [lookupA_bucketInsert] at hb
        by_cases hte : t = s.prev_commit_time + RECORD_HOLD_TIME rrhs
        · rw [if_pos hte] at hb
          obtain rfl := Option.some.inj hb
          intro n hn
          rw [mem_insertSet] at hn
          rcases hn with rfl | hn
          · refine ⟨⟨memos, sig, fo, s.prev_commit_time + RECORD_HOLD_TIME rrhs⟩,
              ?_, ?_⟩
            · show lookupA (insertA s.pending_txns n
                ⟨memos, sig, fo, s.prev_commit_time + RECORD_HOLD_TIME rrhs⟩) n = _
              rw [lookupA_insertA, if_pos rfl]
            · exact hte.symm
          · obtain ⟨b0, hb0, hnb0⟩ := mem_bucketGet _ _ _ hn
            obtain ⟨pt2, hpt2, htt2⟩ := hinv.bucketPend _ _ hb0 n hnb0
            have hne : n ≠ n0 := by
              intro he
              rw [he, hn0pend] at hpt2
              exact Option.noConfusion hpt2
            refine ⟨pt2, ?_, ?_⟩
            · show lookupA (insertA s.pending_txns n0
                ⟨memos, sig, fo, s.prev_commit_time + RECORD_HOLD_TIME rrhs⟩) n = _
              rw [lookupA_insertA, if_neg hne]
              exact hpt2
            · rw [htt2]
              exact hte.symm
        · rw [if_neg hte] at hb
          intro n hn
          obtain ⟨pt2, hpt2, htt2⟩ := hinv.bucketPend _ _ hb n hn
          have hne : n ≠ n0 := by
            intro he
            rw [he, hn0pend] at hpt2
            exact Option.noConfusion hpt2
          refine ⟨pt2, ?_, htt2⟩
          show lookupA (insertA s.pending_txns n0
            ⟨memos, sig, fo, s.prev_commit_time + RECORD_HOLD_TIME rrhs⟩) n = _
          rw [lookupA_insertA, if_neg hne]
          exact hpt2
      · -- bucketFut
        intro t b hb
        replace hb : lookupA (bucketInsert s.expiring_txns
            (s.prev_commit_time + RECORD_HOLD_TIME rrhs) n0) t = some b := hb
        rw [lookupA_bucketInsert] at hb
        show s.prev_commit_time < t
        by_cases hte : t = s.prev_commit_time + RECORD_HOLD_TIME rrhs
        · rw [hte]
          simp only [RECORD_HOLD_TIME]
          omega
        · rw [if_neg hte] at hb
          exact hinv.bucketFut _ _ hb

theorem txinv_clear_expired (s s' : WalletState) (hinv : TxInv s)
    (h : clear_expired_transactions
      { s with
        now := s.now + 1,
        prev_commit_time := s.prev_commit_time + 1 } = some s') :
    TxInv s' := by
  simp only [clear_expired_transactions] at h
  by_cases hg : s.expiring_txns.all
      (fun p => s.prev_commit_time + 1 ≤ p.1) = true
  · rw [if_pos hg] at h
    obtain ⟨hrec, hexp, hnow, hprev, hfn⟩ := expireAll_char _ _ _ _ h
    replace hrec : s'.records = s.records := hrec
    replace hexp : s'.expiring_txns =
      eraseA s.expiring_txns (s.prev_commit_time + 1) := hexp
    replace hprev : s'.prev_commit_time = s.prev_commit_time + 1 := hprev
    replace hfn : ∀ fn,
        (lookupA s'.pending_txns fn =
          if fn ∈ bucketGet s.expiring_txns (s.prev_commit_time + 1) then none
          else lookupA s.pending_txns fn) ∧
        (lookupA s'.ghost_inflight fn =
          if fn ∈ bucketGet s.expiring_txns (s.prev_commit_time + 1) then none
          else lookupA s.ghost_inflight fn) := hfn
    constructor
    · -- holds
      intro fn pt hp
      rw [(hfn fn).1] at hp
      by_cases hmem : fn ∈ bucketGet s.expiring_txns (s.prev_commit_time + 1)
      · rw [if_pos hmem] at hp
        exact Option.noConfusion hp
      · rw [if_neg hmem] at hp
        obtain ⟨ns0, hg0, hh0, hrec0⟩ := hinv.holds fn pt hp
        refine ⟨ns0, ?_, hh0, ?_⟩
        · rw [(hfn fn).2, if_neg hmem]
          exact hg0
        · intro n hn
          obtain ⟨uid, r, ha, hb, hc⟩ := hrec0 n hn
          exact ⟨uid, r, by rw [hrec]; exact ha, by rw [hrec]; exact hb, hc⟩
    · -- inBucket
      intro fn pt hp
      rw [(hfn fn).1] at hp
      by_cases hmem : fn ∈ bucketGet s.expiring_txns (s.prev_commit_time + 1)
      · rw [if_pos hmem] at hp
        exact Option.noConfusion hp
      · rw [if_neg hmem] at hp
        have hmem0 := hinv.inBucket fn pt hp
        have hne : pt.timeout ≠ s.prev_commit_time + 1 := by
          intro he
          rw [he] at hmem0
          exact hmem hmem0
        rw [hexp]
        show fn ∈ (lookupA (eraseA s.expiring_txns
          (s.prev_commit_time + 1)) pt.timeout).getD []
        rw [lookupA_eraseA, if_neg hne]
        exact hmem0
    · -- bucketPend
      intro t b hb
      rw [hexp, lookupA_eraseA] at hb
      by_cases ht : t = s.prev_commit_time + 1
      · rw [if_pos ht] at hb
        exact Option.noConfusion hb
      · rw [if_neg ht] at hb
        intro n hn
        obtain ⟨pt2, hpt2, htt2⟩ := hinv.bucketPend _ _ hb n hn
        have hnmem : n ∉ bucketGet s.expiring_txns (s.prev_commit_time + 1) := by
          intro hmem
          obtain ⟨b2, hb2, hnb2⟩ := mem_bucketGet _ _ _ hmem
          obtain ⟨pt3, hpt3, htt3⟩ := hinv.bucketPend _ _ hb2 n hnb2
          rw [hpt2] at hpt3
          obtain rfl := Option.some.inj hpt3
          rw [htt2] at htt3
          exact ht htt3
        refine ⟨pt2, ?_, htt2⟩
        rw [(hfn n).1, if_neg hnmem]
        exact hpt2
    · -- bucketFut
      intro t b hb
      rw [hexp, lookupA_eraseA] at hb
      by_cases ht : t = s.prev_commit_time + 1
      · rw [if_pos ht] at hb
        exact Option.noConfusion hb
      · rw [if_neg ht] at hb
        have hmem := lookupA_mem _ _ _ hb
        have hge : s.prev_commit_time + 1 ≤ t := by
          have hall := List.all_eq_true.mp hg (t, b) hmem
          simpa using hall
        rw [hprev]
        omega
  · rw [if_neg hg] at h
    exact Option.noConfusion h

theorem insertFreezables_pres_rec (f : RecordOpening → Nat → Nat) :
    ∀ (pairs : List (Nat × RecordOpening)) (db : RecordDatabase) (u : Nat),
    (∀ p ∈ pairs, p.1 ≠ u) →
    lookupA (insertFreezables f db pairs).record_info u =
      lookupA db.record_info u := by
  intro pairs
  induction pairs with
  | nil =>
    intro db u _
    rfl
  | cons p rest ih =>
    intro db u hne
    obtain ⟨uid, ro⟩ := p
    have hu : uid ≠ u := hne (uid, ro) (List.mem_cons_self _ _)
    have hrest : ∀ q ∈ rest, q.1 ≠ u :=
      fun q hq => hne q (List.mem_cons_of_mem _ hq)
    show lookupA (insertFreezables f
        (db.insert_with_nullifier ro uid (f ro uid)) rest).record_info u = _
    rw [ih (db.insert_with_nullifier ro uid (f ro uid)) u hrest]
    show lookupA (insertA db.record_info uid ⟨ro, uid, none⟩) u = _
    rw [lookupA_insertA, if_neg (fun hx => hu hx.symm)]

theorem insertFreezables_pres_nul (f : RecordOpening → Nat → Nat) :
    ∀ (pairs : List (Nat × RecordOpening)) (db : RecordDatabase) (n : Nat),
    (∀ p ∈ pairs, f p.2 p.1 ≠ n) →
    lookupA (insertFreezables f db pairs).nullifier_records n =
      lookupA db.nullifier_records n := by
  intro pairs
  induction pairs with
  | nil =>
    intro db n _
    rfl
  | cons p rest ih =>
    intro db n hne
    obtain ⟨uid, ro⟩ := p
    have hn2 : f ro uid ≠ n := hne (uid, ro) (List.mem_cons_self _ _)
    have hrest : ∀ q ∈ rest, f q.2 q.1 ≠ n :=
      fun q hq => hne q (List.mem_cons_of_mem _ hq)
    show lookupA (insertFreezables f
        (db.insert_with_nullifier ro uid (f ro uid)) rest).nullifier_records n = _
    rw [ih (db.insert_with_nullifier ro uid (f ro uid)) n hrest]
    show lookupA (insertA db.nullifier_records (f ro uid) uid) n = _
    rw [lookupA_insertA, if_neg (fun hx => hn2 hx.symm)]

theorem txinv_spent_state (s : WalletState) (txn : ModelTxn) (n0 : Nat)
    (restN : List Nat) (ns : List Nat) (M : WalletState) (RB : RecordDatabase)
    (EXP : List (Nat × List Nat))
    (hn : txn.nullifiers = n0 :: restN)
    (hinv : TxInv s) (hshare : NoPendingShare s txn)
    (hns : ∀ n ∈ ns, n ∈ txn.nullifiers)
    (hpres : ∀ u r, lookupA s.records.record_info u = some r →
      (∀ n ∈ txn.nullifiers, lookupA s.records.nullifier_records n ≠ some u) →
      lookupA RB.record_info u = some r)
    (hnulpres : ∀ n u, lookupA s.records.nullifier_records n = some u →
      lookupA RB.nullifier_records n = some u)
    (hgrow : ∀ n u, lookupA RB.nullifier_records n = some u →
      lookupA s.records.nullifier_records n = some u ∨
      lookupA s.records.record_info u = none)
    (hexp : (EXP = s.expiring_txns ∧ lookupA s.pending_txns n0 = none) ∨
      (∃ p, lookupA s.pending_txns n0 = some p ∧
        EXP = bucketErase s.expiring_txns p.timeout n0))
    (hM : M = { s with
      records := RB,
      pending_txns := eraseA s.pending_txns n0,
      expiring_txns := EXP,
      ghost_inflight := eraseA s.ghost_inflight n0 }) :
    TxInv (ns.foldl (fun st n =>
      { st with
        nullifier_set := insertSet n st.nullifier_set,
        records := (st.records.remove_by_nullifier n).2 }) M) := by
  have hMp : M.pending_txns = eraseA s.pending_txns n0 := by rw [hM]
  have hMg : M.ghost_inflight = eraseA s.ghost_inflight n0 := by rw [hM]
  have hMe : M.expiring_txns = EXP := by rw [hM]
  have hMpr : M.prev_commit_time = s.prev_commit_time := by rw [hM]
  have hMrec : M.records = RB := by rw [hM]
  obtain ⟨hSp, hSe, hSg, hSn, hSpr⟩ := spend_foldl_fields ns M
  constructor
  · -- holds
    intro fn pt hfn
    rw [hSp, hMp, lookupA_eraseA] at hfn
    by_cases hfe : fn = n0
    · rw [if_pos hfe] at hfn
      exact Option.noConfusion hfn
    · rw [if_neg hfe] at hfn
      have hhead : some fn ≠ txn.nullifiers.head? := by
        rw [hn]
        intro hcon
        exact hfe (Option.some.inj hcon)
      obtain ⟨ns0, hg0, hh0, hrec0⟩ := hinv.holds fn pt hfn
      refine ⟨ns0, ?_, hh0, ?_⟩
      · rw [hSg, hMg, lookupA_eraseA, if_neg hfe]
        exact hg0
      · intro n2 hn2
        obtain ⟨uid2, r2, ha, hb, hc⟩ := hrec0 n2 hn2
        have hcond : ∀ n ∈ txn.nullifiers,
            lookupA s.records.nullifier_records n ≠ some uid2 := by
          intro n hnn heq
          exact hshare n hnn fn pt hhead hfn ns0 hg0 n2 hn2 uid2 uid2 heq ha rfl
        have hne : ∀ n ∈ ns, ∀ u,
            lookupA M.records.nullifier_records n = some u → u ≠ uid2 := by
          intro n hnn u hu heq
          rw [hMrec] at hu
          rcases hgrow n u hu with h0 | h0
          · exact hshare n (hns n hnn) fn pt hhead hfn ns0 hg0 n2 hn2 u uid2
              h0 ha heq
          · rw [heq] at h0
            rw [h0] at hb
            exact Option.noConfusion hb
        have hchain := spend_foldl_pres ns M uid2 n2 r2
          (by rw [hMrec]; exact hpres uid2 r2 hb hcond)
          (by rw [hMrec]; exact hnulpres n2 uid2 ha)
          hne
        exact ⟨uid2, r2, hchain.2, hchain.1, hc⟩
  · -- inBucket
    intro fn pt hfn
    rw [hSp, hMp, lookupA_eraseA] at hfn
    by_cases hfe : fn = n0
    · rw [if_pos hfe] at hfn
      exact Option.noConfusion hfn
    · rw [if_neg hfe] at hfn
      have hmem := hinv.inBucket fn pt hfn
      rw [hSe, hMe]
      rcases hexp with ⟨he, -⟩ | ⟨p, hp, he⟩
      · rw [he]
        exact hmem
      · rw [he, bucketGet_bucketErase]
        by_cases htp : pt.timeout = p.timeout
        · rw [if_pos htp, mem_eraseL]
          exact ⟨htp ▸ hmem, hfe⟩
        · rw [if_neg htp]
          exact hmem
  · -- bucketPend
    intro t b hb
    rw [hSe, hMe] at hb
    rcases hexp with ⟨he, hnone⟩ | ⟨p, hp, he⟩
    · rw [he] at hb
      intro n hn2
      obtain ⟨pt2, hpt2, htt2⟩ := hinv.bucketPend _ _ hb n hn2
      have hne2 : n ≠ n0 := by
        intro heq
        rw [heq, hnone] at hpt2
        exact Option.noConfusion hpt2
      refine ⟨pt2, ?_, htt2⟩
      rw [hSp, hMp, lookupA_eraseA, if_neg hne2]
      exact hpt2
    · rw [he] at hb
      obtain ⟨b0, hb0, hmem0⟩ := mem_bucketGet _ _ _ (hinv.inBucket n0 p hp)
      rw [lookupA_bucketErase] at hb
      simp only [hb0] at hb
      by_cases htp : t = p.timeout
      · rw [if_pos htp] at hb
        obtain rfl := Option.some.inj hb
        intro n hn2
        rw [mem_eraseL] at hn2
        obtain ⟨hnb0, hnn0⟩ := hn2
        obtain ⟨pt2, hpt2, htt2⟩ := hinv.bucketPend _ _ hb0 n hnb0
        refine ⟨pt2, ?_, ?_⟩
        · rw [hSp, hMp, lookupA_eraseA, if_neg hnn0]
          exact hpt2
        · rw [htt2]
          exact htp.symm
      · rw [if_neg htp] at hb
        intro n hn2
        obtain ⟨pt2, hpt2, htt2⟩ := hinv.bucketPend _ _ hb n hn2
        have hne2 : n ≠ n0 := by
          intro heq
          rw [heq, hp] at hpt2
          obtain rfl := Option.some.inj hpt2
          exact htp htt2.symm
        refine ⟨pt2, ?_, htt2⟩
        rw [hSp, hMp, lookupA_eraseA, if_neg hne2]
        exact hpt2
  · -- bucketFut
    intro t b hb
    rw [hSe, hMe] at hb
    rw [hSpr, hMpr]
    rcases hexp with ⟨he, -⟩ | ⟨p, hp, he⟩
    · rw [he] at hb
      exact hinv.bucketFut _ _ hb
    · rw [he] at hb
      obtain ⟨b0, hb0, hmem0⟩ := mem_bucketGet _ _ _ (hinv.inBucket n0 p hp)
      rw [lookupA_bucketErase] at hb
      simp only [hb0] at hb
      by_cases htp : t = p.timeout
      · rw [htp]
        exact hinv.bucketFut _ _ hb0
      · rw [if_neg htp] at hb
        exact hinv.bucketFut _ _ hb

theorem txinv_commit (fnul unul : RecordOpening → Nat → Nat)
    (s s' : WalletState) (txn : ModelTxn) (this_uids : List Nat)
    (auditIns recvIns : List (Nat × RecordOpening))
    (hinv : TxInv s) (hshare : NoPendingShare s txn)
    (hfa : FreshInserts fnul s auditIns) (hfr : FreshInserts unul s recvIns)
    (hff : ∀ n0 rest pt, txn.nullifiers = n0 :: rest →
      lookupA s.pending_txns n0 = some pt →
      FreshInserts fnul s ((this_uids.drop 1).zip pt.freeze_outputs))
    (h : process_commit_txn fnul unul s txn this_uids auditIns recvIns = some s') :
    TxInv s' := by
  have hfreshne : ∀ (g : RecordOpening → Nat → Nat)
      (pairs : List (Nat × RecordOpening)), FreshInserts g s pairs →
      ∀ u r, lookupA s.records.record_info u = some r →
      ∀ p ∈ pairs, p.1 ≠ u := by
    intro g pairs hfresh u r hu p hp heq
    have hx := (hfresh p hp).1
    rw [heq, hu] at hx
    exact Option.noConfusion hx
  have hfreshnul : ∀ (g : RecordOpening → Nat → Nat)
      (pairs : List (Nat × RecordOpening)), FreshInserts g s pairs →
      ∀ n u0, lookupA s.records.nullifier_records n = some u0 →
      ∀ p ∈ pairs, g p.2 p.1 ≠ n := by
    intro g pairs hfresh n u0 hn0 p hp heq
    have hx := (hfresh p hp).2
    rw [heq, hn0] at hx
    exact Option.noConfusion hx
  simp only [process_commit_txn] at h
  by_cases hlen : this_uids.length ≠ txn.output_len
  · rw [if_pos hlen] at h
    exact Option.noConfusion h
  · rw [if_neg hlen] at h
    cases hcp : clear_pending_transaction fnul s txn (some this_uids) with
    | none =>
      simp only [hcp] at h
      exact Option.noConfusion h
    | some pr =>
      obtain ⟨pend, s1⟩ := pr
      simp only [hcp] at h
      obtain ⟨n0, restN, hn, hpend, hs1⟩ :=
        clear_pending_ok_char fnul s txn this_uids pend s1 hcp
      obtain rfl := Option.some.inj h
      rw [hs1]
      cases pend with
      | none =>
        refine txinv_spent_state s txn n0 restN txn.nullifiers _
          (insertFreezables unul (insertFreezables fnul s.records auditIns) recvIns)
          s.expiring_txns hn hinv hshare (fun n hn2 => hn2) ?_ ?_ ?_
          (Or.inl ⟨rfl, hpend.symm⟩) rfl
        · intro u r hu _
          rw [insertFreezables_pres_rec unul recvIns _ u
              (hfreshne unul recvIns hfr u r hu),
            insertFreezables_pres_rec fnul auditIns _ u
              (hfreshne fnul auditIns hfa u r hu)]
          exact hu
        · intro n u hn0
          rw [insertFreezables_pres_nul unul recvIns _ n
              (hfreshnul unul recvIns hfr n u hn0),
            insertFreezables_pres_nul fnul auditIns _ n
              (hfreshnul fnul auditIns hfa n u hn0)]
          exact hn0
        · intro n u hu
          rcases insertFreezables_growth unul recvIns _ n u hu with h2 | ⟨p2, hp2, hpe⟩
          · rcases insertFreezables_growth fnul auditIns _ n u h2 with h3 | ⟨p2, hp2, hpe⟩
            · exact Or.inl h3
            · exact Or.inr (hpe ▸ (hfa p2 hp2).1)
          · exact Or.inr (hpe ▸ (hfr p2 hp2).1)
      | some p =>
        have hfp : FreshInserts fnul s ((this_uids.drop 1).zip p.freeze_outputs) :=
          hff n0 restN p hn hpend.symm
        refine txinv_spent_state s txn n0 restN txn.nullifiers _
          (insertFreezables unul (insertFreezables fnul
            (insertFreezables fnul s.records
              ((this_uids.drop 1).zip p.freeze_outputs)) auditIns) recvIns)
          (bucketErase s.expiring_txns p.timeout n0) hn hinv hshare
          (fun n hn2 => hn2) ?_ ?_ ?_ (Or.inr ⟨p, hpend.symm, rfl⟩) rfl
        · intro u r hu _
          rw [insertFreezables_pres_rec unul recvIns _ u
              (hfreshne unul recvIns hfr u r hu),
            insertFreezables_pres_rec fnul auditIns _ u
              (hfreshne fnul auditIns hfa u r hu),
            insertFreezables_pres_rec fnul _ _ u
              (hfreshne fnul _ hfp u r hu)]
          exact hu
        · intro n u hn0
          rw [insertFreezables_pres_nul unul recvIns _ n
              (hfreshnul unul recvIns hfr n u hn0),
            insertFreezables_pres_nul fnul auditIns _ n
              (hfreshnul fnul auditIns hfa n u hn0),
            insertFreezables_pres_nul fnul _ _ n
              (hfreshnul fnul _ hfp n u hn0)]
          exact hn0
        · intro n u hu
          rcases insertFreezables_growth unul recvIns _ n u hu with h2 | ⟨p2, hp2, hpe⟩
          · rcases insertFreezables_growth fnul auditIns _ n u h2 with h3 | ⟨p2, hp2, hpe⟩
            · rcases insertFreezables_growth fnul _ _ n u h3 with h4 | ⟨p2, hp2, hpe⟩
              · exact Or.inl h4
              · exact Or.inr (hpe ▸ (hfp p2 hp2).1)
            · exact Or.inr (hpe ▸ (hfa p2 hp2).1)
          · exact Or.inr (hpe ▸ (hfr p2 hp2).1)

theorem txinv_reject (fnul : RecordOpening → Nat → Nat) (rrhs : Nat)
    (h1 : 1 ≤ rrhs) (s s' : WalletState) (txn : ModelTxn)
    (err : MValidationError) (subs : List ModelTxn)
    (hinv : TxInv s) (hshare : NoPendingShare s txn)
    (h : process_reject_txn fnul rrhs s txn err = some (s', subs)) :
    TxInv s' := by
  simp only [process_reject_txn] at h
  cases hcp : clear_pending_transaction fnul s txn none with
  | none =>
    simp only [hcp] at h
    exact Option.noConfusion h
  | some pr =>
    obtain ⟨pend, s1⟩ := pr
    obtain ⟨n0, restN, db, hn, hpend, hdb, hs1⟩ :=
      clear_pending_err_char fnul s txn pend s1 hcp
    cases pend with
    | none =>
      simp only [hcp] at h
      have hdbe : db = s.records := unholdOrCheck_notOurs _ _ _ _ _ hdb
      have hinv1 : TxInv s1 := by
        rw [hs1]
        exact txinv_spent_state s txn n0 restN [] _ db s.expiring_txns hn hinv
          hshare (fun n hn2 => absurd hn2 (List.not_mem_nil n))
          (fun u r hu _ => by rw [hdbe]; exact hu)
          (fun n u hu => by rw [hdbe]; exact hu)
          (fun n u hu => Or.inl (by rw [← hdbe]; exact hu))
          (Or.inl ⟨rfl, hpend.symm⟩) rfl
      obtain ⟨hseq, -⟩ := Prod.mk.inj (Option.some.inj h)
      rw [← hseq]
      exact hinv1
    | some p =>
      simp only [hcp] at h
      have hdb2 : unholdOrCheck true true s.prev_commit_time s.records
          (n0 :: restN) = some db := hdb
      have hflds : db.nullifier_records = s.records.nullifier_records :=
        (unholdOrCheck_fields (n0 :: restN) true true s.prev_commit_time
          s.records db hdb2).1
      have hinv1 : TxInv s1 := by
        rw [hs1]
        refine txinv_spent_state s txn n0 restN [] _ db
          (bucketErase s.expiring_txns p.timeout n0) hn hinv hshare
          (fun n hn2 => absurd hn2 (List.not_mem_nil n)) ?_ ?_ ?_
          (Or.inr ⟨p, hpend.symm, rfl⟩) rfl
        · intro u r hu hcond
          rw [unholdOrCheck_untouched (n0 :: restN) s.prev_commit_time
            s.records db hdb2 u (fun n hnn => hcond n (by rw [hn]; exact hnn))]
          exact hu
        · intro n u hu
          rw [hflds]
          exact hu
        · intro n u hu
          refine Or.inl ?_
          rw [← hflds]
          exact hu
      by_cases herr : err = MValidationError.BadNullifierProof
      · rw [if_pos herr] at h
        cases hupd : update_nullifier_proofs_ok s1 txn with
        | false =>
          rw [hupd] at h
          simp only [Bool.false_eq_true, if_false] at h
          obtain ⟨hseq, -⟩ := Prod.mk.inj (Option.some.inj h)
          rw [← hseq]
          exact hinv1
        | true =>
          rw [hupd] at h
          simp only [if_true] at h
          cases hadd : add_pending_transaction rrhs s1 txn.nullifiers
              p.receiver_memos p.signature p.freeze_outputs with
          | none =>
            rw [hadd] at h
            exact Option.noConfusion h
          | some s2 =>
            rw [hadd] at h
            obtain ⟨hseq, -⟩ := Prod.mk.inj (Option.some.inj h)
            rw [← hseq]
            exact txinv_add_pending rrhs h1 s1 s2 txn.nullifiers
              p.receiver_memos p.signature p.freeze_outputs hinv1 hadd
      · rw [if_neg herr] at h
        obtain ⟨hseq, -⟩ := Prod.mk.inj (Option.some.inj h)
        rw [← hseq]
        exact hinv1

/-- C2: the pending-transaction hold invariant. `TxInv` states that every
entry of the pending map records its full input-nullifier list (the ghost
field `ghost_inflight`), that every one of those input nullifiers maps to a
record present in the database whose `hold_until` equals that pending
transaction's timeout, and (auxiliaries needed for preservation) that the
expiration index and pending map mirror each other and all bucket keys lie in
the future. The invariant is preserved by every state-mutating step of the
wallet — submission (`add_pending_transaction`), event-clock advance, expired
-transaction clearing, and per-transaction commit and reject processing —
under the environment guarantees `NoPendingShare` (a processed transaction
shares no input record with a distinct surviving pending transaction, which
the validator's record-root history bound enforces) and `FreshInserts`
(received/audited/frozen output records carry fresh uids and nullifiers),
provided `RECORD_ROOT_HISTORY_SIZE ≥ 1`. -/
theorem c2_pending_invariant :
    ∀ (fnul unul : RecordOpening → Nat → Nat) (recordRootHistorySize : Nat),
      1 ≤ recordRootHistorySize →
      ∀ s s' : WalletState, TxInv s →
        WStep fnul unul recordRootHistorySize s s' → TxInv s' := by
  intro fnul unul rrhs h1 s s' hinv hstep
  cases hstep with
  | submit s nulls memos sig fo hadd =>
    exact txinv_add_pending rrhs h1 s s' nulls memos sig fo hinv hadd
  | bumpClock =>
    exact ⟨hinv.holds, hinv.inBucket, hinv.bucketPend, hinv.bucketFut⟩
  | advanceExpire s hclr =>
    exact txinv_clear_expired s s' hinv hclr
  | commitTxn s txn this_uids auditIns recvIns hshare hfa hfr hff hpc =>
    exact txinv_commit fnul unul s s' txn this_uids auditIns recvIns hinv
      hshare hfa hfr hff hpc
  | rejectTxn s txn err subs hshare hpr =>
    exact txinv_reject fnul rrhs h1 s s' txn err subs hinv hshare hpr

/-- Witness for C2 at a concrete step: the empty wallet `sW` satisfies the
invariant vacuously, and the submission step that produces `sW1` preserves
it. -/
theorem c2_witness : TxInv sW1 :=
  c2_pending_invariant nulW nulW 2 (by decide) sW sW1
    ⟨fun fn pt h => Option.noConfusion h,
     fun fn pt h => Option.noConfusion h,
     fun t b h => Option.noConfusion h,
     fun t b h => Option.noConfusion h⟩
    (WStep.submit sW sW1 [100] 0 0 [] rfl)

end Espresso
